import Mathlib

/-!
Verification of the rosalana/sandbox GLSL preprocessor.

Shallow embedding of the live pipeline:
  * `Parser` (src/src/tools/parser.ts): line-anchored recognisers for
    imports, uniforms and functions, with character-index dependency scans.
  * `Module` (src/src/tools/module.ts, second revision): extraction of a
    function together with the transitive closure of its helpers.
  * `Compilable` (the revision importing `../globals`): import processing,
    namespacing, option rewriting, splicing.
  * `ModuleRegistry` (src/src/tools/module_registry.ts).
  * `Shader` (src/src/tools/shader.ts) and `Clock` (src/src/tools/clock.ts).

Strings are processed as `List Char`.  The JavaScript regexes in the source
are all line-anchored (`^` with the `m` flag, `[ \t]*` prefixes); they are
modelled as per-line matchers.  `\s` inside a line is modelled by the ASCII
whitespace characters space, tab, \x0B, \x0C, \r (a line never contains a
newline; the non-ASCII JavaScript space characters are not used by any
input considered here).  Mutation is modelled by explicit state passing;
`Math.random().toString(36).substring(2, 8)` is modelled by an injected
stream of suffix strings, one consumed per processed import.
-/

namespace Sandbox

/-! ## Data model (src/src/types.ts) -/

/-- `GLSLVariable`: `{ name, type }`.  The parser casts the matched word to
`GLSLType` without validation, so the type is kept as a raw string. -/
structure GLSLVariable where
  type : String
  name : String
  deriving Repr, DecidableEq

/-- `ShaderUniform`: variable plus optional array size and 1-based line. -/
structure ShaderUniform where
  name : String
  type : String
  line : Nat
  arrayNum : Option Nat := none
  deriving Repr, DecidableEq

/-- `ShaderImport`: `{ name, alias, module, line }` (`alias` is a Lean
keyword, so the field is called `aliasName`). -/
structure ShaderImport where
  name : String
  aliasName : String
  module : String
  line : Nat
  deriving Repr, DecidableEq

/-- The `type` field of a dependency record: `"function"` or `"uniform"`. -/
inductive DepType where
  | function
  | uniform
  deriving Repr, DecidableEq

/-- A dependency record `{ name, type, index }`; `index` is the character
offset of the reference inside the function body. -/
structure ShaderDep where
  name : String
  type : DepType
  index : Nat
  deriving Repr, DecidableEq

/-- `ShaderFunction`: `{ name, type, params, body, dependencies, line }`;
`body` is the exact substring including both braces. -/
structure ShaderFunction where
  name : String
  type : String
  params : List GLSLVariable
  body : String
  dependencies : List ShaderDep
  line : Nat
  deriving Repr, DecidableEq

/-- `ShaderParseResult`. -/
structure ShaderParseResult where
  version : Nat
  imports : List ShaderImport
  uniforms : List ShaderUniform
  functions : List ShaderFunction
  deriving Repr, DecidableEq

/-- The tagged errors raised by the core (src/src/errors). -/
inductive Fault where
  | duplicateImportName (aliasName : String) (line : Nat)
  | importSyntax (line : Nat) (details : String)
  | moduleNotFound (name : String)
  | methodNotFound (moduleName fn : String)
  | attemptedImportMain (moduleName : String)
  | attemptedImportDefault (moduleName : String)
  | forbiddenModuleName (name : String)
  | overwriteModule (name : String)
  | requirementMismatch (requirement name expectedType actualType : String)
  | shaderWithoutFunction
  | outOfFuel
  deriving Repr, DecidableEq

/-- Fault propagation (an explicit `Except` bind): a thrown error aborts
the surrounding computation, as an uncaught JavaScript exception does. -/
def bindE {α β : Type} (x : Except Fault α) (f : α → Except Fault β) :
    Except Fault β :=
  match x with
  | .error e => .error e
  | .ok v => f v

/-! ## Character and line utilities -/

/-- JavaScript `\w`: `[A-Za-z0-9_]`. -/
def isWordChar (c : Char) : Bool :=
  c.isAlpha || c.isDigit || c == '_'

/-- First character of a JavaScript identifier: `[a-zA-Z_]`. -/
def isIdentStart (c : Char) : Bool :=
  c.isAlpha || c == '_'

/-- JavaScript `\s` restricted to characters a line can contain
(space, tab, vertical tab, form feed, carriage return). -/
def isLineWs (c : Char) : Bool :=
  c == ' ' || c == '\t' || c == '\x0B' || c == '\x0C' || c == '\r'

/-- `[ \t]` — the only whitespace the recognisers accept before a directive. -/
def isTabSpace (c : Char) : Bool :=
  c == ' ' || c == '\t'

/-- Split a character list into lines at `'\n'` (like `source.split("\n")`:
the result is never empty, and a trailing newline yields a final empty line). -/
def splitLinesCh : List Char → List (List Char)
  | [] => [[]]
  | c :: rest =>
    match splitLinesCh rest with
    | [] => [[]]
    | l :: ls => if c = '\n' then [] :: l :: ls else (c :: l) :: ls

/-- Join lines with `'\n'` (like `lines.join("\n")`). -/
def joinLinesCh : List (List Char) → List Char
  | [] => []
  | [l] => l
  | l :: ls => l ++ '\n' :: joinLinesCh ls

/-- Drop leading `[ \t]*`. -/
def skipTabSpaces (cs : List Char) : List Char :=
  cs.dropWhile isTabSpace

/-- Drop leading line whitespace (`\s*` within a line). -/
def skipWs (cs : List Char) : List Char :=
  cs.dropWhile isLineWs

/-- `\s+` within a line: at least one whitespace character must be present. -/
def skipWs1 (cs : List Char) : Option (List Char) :=
  match cs with
  | c :: rest => if isLineWs c then some (skipWs rest) else none
  | [] => none

/-- Maximal `\w*` prefix together with the remainder. -/
def takeWord (cs : List Char) : List Char × List Char :=
  (cs.takeWhile isWordChar, cs.dropWhile isWordChar)

/-- Expect a literal string prefix; return the remainder on success. -/
def expectStr (lit : List Char) (cs : List Char) : Option (List Char) :=
  if lit.isPrefixOf cs then some (cs.drop lit.length) else none

/-- JavaScript `String.prototype.trim` on a line (both ends, `\s`). -/
def trimJs (cs : List Char) : List Char :=
  ((cs.dropWhile isLineWs).reverse.dropWhile isLineWs).reverse

/-- Word boundary at the head of the remainder: the previous characters
formed a word, the next (if any) must not be a word character. -/
def boundaryAt (cs : List Char) : Bool :=
  match cs with
  | [] => true
  | c :: _ => !isWordChar c

/-- Index of the last quote character (`'` or `"`) in a list, if any. -/
def lastQuoteIdx (cs : List Char) : Option Nat :=
  match cs with
  | [] => none
  | c :: rest =>
    match lastQuoteIdx rest with
    | some i => some (i + 1)
    | none => if c = '\x27' || c = '"' then some 0 else none

/-! ## Parser (src/src/tools/parser.ts) -/

namespace Parser

/-- The strict import recogniser
`^[ \t]*#import\s+(\w+)(?:\s+as\s+(\w+))?\s+from\s+["\x27](.+)["\x27]`,
applied to one line.  Returns `(name, alias, module)` on a match.  The
quoted module path is everything between the first quote after `from` and
the last quote character on the line (the greedy `(.+)` backtracks to the
last quote), and must be non-empty. -/
def strictImportLine (line : List Char) : Option (String × String × String) := do
  let cs := skipTabSpaces line
  let cs ← expectStr "#import".data cs
  let cs ← skipWs1 cs
  let (name, cs) := takeWord cs
  if name.isEmpty then none else
  let quoted : List Char → Option String := fun cs => do
    let cs ← skipWs1 cs
    let cs ← expectStr "from".data cs
    let cs ← skipWs1 cs
    match cs with
    | c :: rest =>
      if c = '\x27' || c = '"' then
        match lastQuoteIdx rest with
        | some j => if j ≥ 1 then some ⟨rest.take j⟩ else none
        | none => none
      else none
    | [] => none
  let asBranch : Option (String × String) := do
    let cs1 ← skipWs1 cs
    let cs1 ← expectStr "as".data cs1
    let cs1 ← skipWs1 cs1
    let (al, cs1) := takeWord cs1
    if al.isEmpty then none else
    let m ← quoted cs1
    some (⟨al⟩, m)
  match asBranch with
  | some (al, m) => some (⟨name⟩, al, m)
  | none => do
    let m ← quoted cs
    some (⟨name⟩, ⟨name⟩, m)

/-- The loose recogniser `^[ \t]*[^\w\s]?import\b`, applied to one line. -/
def looseImportLine (line : List Char) : Bool :=
  let cs := skipTabSpaces line
  let direct :=
    match expectStr "import".data cs with
    | some rest => boundaryAt rest
    | none => false
  let prefixed :=
    match cs with
    | c :: rest =>
      if !isWordChar c && !isLineWs c then
        match expectStr "import".data rest with
        | some rest2 => boundaryAt rest2
        | none => false
      else false
    | [] => false
  direct || prefixed

/-- JavaScript `line.split(/\s+/)` on an already-trimmed line: the
whitespace-separated parts, in order. -/
def splitWsRuns (cs : List Char) : List String :=
  ((cs.splitOnP isLineWs).filter (fun l => !l.isEmpty)).map (fun l => String.mk l)

/-- Does `^#import\s+` match, returning the remainder after the whitespace? -/
private def afterImportWs (t : List Char) : Option (List Char) := do
  let cs ← expectStr "#import".data t
  skipWs1 cs

/-- First occurrence of `from\s+(\S+)` anywhere in the line
(the `fromMatch` lookup of `diagnoseImport`). -/
def findFromArg : List Char → Option String
  | [] => none
  | c :: rest =>
    match expectStr "from".data (c :: rest) with
    | some cs =>
      (match skipWs1 cs with
       | some cs2 =>
         let w := cs2.takeWhile (fun c => !isLineWs c)
         if w.isEmpty then findFromArg rest else some ⟨w⟩
       | none => findFromArg rest)
    | none => findFromArg rest

/-- `Parser.diagnoseImport`: produce the diagnosis text for a trimmed
line that begins like an import but does not match the strict form. -/
def diagnoseImport (t : List Char) : String :=
  let expectedBase := "Expected: #import <function> from \x27<module>\x27"
  -- ^([^\w\s])import\b with a prefix other than '#'
  let wrongPrefix : Option Char :=
    match t with
    | c :: rest =>
      if !isWordChar c && !isLineWs c && c ≠ '#' then
        match expectStr "import".data rest with
        | some rest2 => if boundaryAt rest2 then some c else none
        | none => none
      else none
    | [] => none
  match wrongPrefix with
  | some c => "Invalid prefix \x27" ++ String.mk [c] ++ "\x27. " ++ expectedBase
  | none =>
  -- ^import\b
  if (match expectStr "import".data t with
      | some rest => boundaryAt rest
      | none => false) then
    "Missing \x27#\x27 prefix. " ++ expectedBase
  else
  -- ^#import\s+from\b
  if (match afterImportWs t with
      | some cs =>
        (match expectStr "from".data cs with
         | some rest => boundaryAt rest
         | none => false)
      | none => false) then
    "Missing function name. " ++ expectedBase
  else
  -- ^#import\s+\w+\s*$
  if (match afterImportWs t with
      | some cs =>
        let (w, cs2) := takeWord cs
        !w.isEmpty && (skipWs cs2).isEmpty
      | none => false) then
    "Missing \x27from\x27 clause. Expected: #import " ++
      ((splitWsRuns t).getD 1 "") ++ " from \x27<module>\x27"
  else
  -- ^#import\s+\w+\s+as\s*$  or  ^#import\s+\w+\s+as\s+from\b
  if (match afterImportWs t with
      | some cs =>
        let (w, cs2) := takeWord cs
        if w.isEmpty then false else
        match skipWs1 cs2 with
        | some cs3 =>
          (match expectStr "as".data cs3 with
           | some cs4 =>
             (skipWs cs4).isEmpty ||
             (match skipWs1 cs4 with
              | some cs5 =>
                (match expectStr "from".data cs5 with
                 | some rest => boundaryAt rest
                 | none => false)
              | none => false)
           | none => false)
        | none => false
      | none => false) then
    "Missing alias name after \x27as\x27. Expected: #import " ++
      ((splitWsRuns t).getD 1 "") ++ " as <alias> from \x27<module>\x27"
  else
  -- ^#import\s+\w+\s+as\s+\w+\s*$
  if (match afterImportWs t with
      | some cs =>
        let (w, cs2) := takeWord cs
        if w.isEmpty then false else
        match skipWs1 cs2 with
        | some cs3 =>
          (match expectStr "as".data cs3 with
           | some cs4 =>
             (match skipWs1 cs4 with
              | some cs5 =>
                let (w2, cs6) := takeWord cs5
                !w2.isEmpty && (skipWs cs6).isEmpty
              | none => false)
           | none => false)
        | none => false
      | none => false) then
    "Missing \x27from\x27 clause. Expected: #import " ++
      ((splitWsRuns t).getD 1 "") ++ " as " ++ ((splitWsRuns t).getD 3 "") ++
      " from \x27<module>\x27"
  else
  -- ^#import\s+\w+(?:\s+as\s+\w+)?\s+from\s+\w+
  if (match afterImportWs t with
      | some cs =>
        let (w, cs2) := takeWord cs
        if w.isEmpty then false else
        let tailCheck : List Char → Bool := fun cs =>
          match skipWs1 cs with
          | some cs3 =>
            (match expectStr "from".data cs3 with
             | some cs4 =>
               (match skipWs1 cs4 with
                | some cs5 => !(cs5.takeWhile isWordChar).isEmpty
                | none => false)
             | none => false)
          | none => false
        let asFirst : Bool :=
          match skipWs1 cs2 with
          | some cs3 =>
            (match expectStr "as".data cs3 with
             | some cs4 =>
               (match skipWs1 cs4 with
                | some cs5 =>
                  let (w2, cs6) := takeWord cs5
                  !w2.isEmpty && tailCheck cs6
                | none => false)
             | none => false)
          | none => false
        asFirst || tailCheck cs2
      | none => false) then
    "Module name must be quoted. Expected: from \x27" ++
      ((findFromArg t).getD "undefined") ++ "\x27"
  else
    "Invalid syntax. " ++ expectedBase

/-- `Parser.detectImports`, pass one: collect strict matches line by line
(line numbers 1-based), raising the duplicate-alias fault as the source
does while collecting. -/
def collectImports : List (List Char) → Nat → List ShaderImport →
    Except Fault (List ShaderImport)
  | [], _, acc => .ok acc.reverse
  | l :: ls, n, acc =>
    match strictImportLine l with
    | some (name, al, m) =>
      if acc.any (fun imp => imp.aliasName = al) then
        .error (.duplicateImportName al n)
      else
        collectImports ls (n + 1) (⟨name, al, m, n⟩ :: acc)
    | none => collectImports ls (n + 1) acc

/-- `Parser.detectImports`, pass two: the first line that matches the loose
form but is not a valid import line raises the import-syntax fault. -/
def checkLooseImports (imports : List ShaderImport) :
    List (List Char) → Nat → Except Fault Unit
  | [], _ => .ok ()
  | l :: ls, n =>
    if looseImportLine l && !(imports.any (fun imp => imp.line = n)) then
      .error (.importSyntax n (diagnoseImport (trimJs l)))
    else
      checkLooseImports imports ls (n + 1)

/-- `Parser.detectImports`: collect the valid imports, then fault on the
first loose-but-invalid import line. -/
def detectImports (source : List Char) : Except Fault (List ShaderImport) :=
  match collectImports (splitLinesCh source) 1 [] with
  | .error e => .error e
  | .ok imports =>
    match checkLooseImports imports (splitLinesCh source) 1 with
    | .error e => .error e
    | .ok _ => .ok imports

/-- One line of `/^\s*#version\s+300\s+es/m`. -/
def versionLine (line : List Char) : Bool :=
  (Option.isSome <| do
    let cs := skipWs line
    let cs ← expectStr "#version".data cs
    let cs ← skipWs1 cs
    let cs ← expectStr "300".data cs
    let cs ← skipWs1 cs
    let _ ← expectStr "es".data cs
    some ())

/-- `Parser.detectVersion`: 2 when the `#version 300 es` directive is
present at the start of some line, else 1. -/
def detectVersion (source : List Char) : Nat :=
  if (splitLinesCh source).any versionLine then 2 else 1

/-- Convert a digit run to a number (`parseInt(d, 10)`). -/
def digitsToNat (ds : List Char) : Nat :=
  ds.foldl (fun n c => n * 10 + (c.toNat - 48)) 0

/-- The part of the uniform recogniser after the optional precision
qualifier: `(\w+)\s+(\w+)(?:\[(\d+)\])?\s*;`. -/
def uniformBody (cs : List Char) : Option (String × String × Option Nat) := do
  let (ty, cs) := takeWord cs
  if ty.isEmpty then none else
  let cs ← skipWs1 cs
  let (nm, cs) := takeWord cs
  if nm.isEmpty then none else
  let (arr, cs) :=
    match cs with
    | '[' :: tl =>
      let ds := tl.takeWhile Char.isDigit
      (match tl.dropWhile Char.isDigit with
       | ']' :: tl2 => if ds.isEmpty then (none, cs) else (some (digitsToNat ds), tl2)
       | _ => (none, cs))
    | _ => (none, cs)
  let cs := skipWs cs
  match cs with
  | ';' :: _ => some (⟨ty⟩, ⟨nm⟩, arr)
  | _ => none

/-- One line of the uniform recogniser
`^[ \t]*uniform\s+(?:(?:highp|mediump|lowp)\s+)?(\w+)\s+(\w+)(?:\[(\d+)\])?\s*;`.
The optional precision group is tried first and dropped on backtracking,
exactly as the greedy `?` does. -/
def uniformLine (line : List Char) : Option (String × String × Option Nat) := do
  let cs := skipTabSpaces line
  let cs ← expectStr "uniform".data cs
  let cs ← skipWs1 cs
  let precisionRest : Option (List Char) :=
    match expectStr "highp".data cs with
    | some r => skipWs1 r
    | none =>
      match expectStr "mediump".data cs with
      | some r => skipWs1 r
      | none =>
        match expectStr "lowp".data cs with
        | some r => skipWs1 r
        | none => none
  match precisionRest with
  | some cs2 =>
    match uniformBody cs2 with
    | some res => some res
    | none => uniformBody cs
  | none => uniformBody cs

/-- `Parser.detectUniforms`: scan every line; record name, type, 1-based
line and optional array size for each match. -/
def detectUniforms (source : List Char) : List ShaderUniform :=
  (splitLinesCh source).enum.filterMap fun p =>
    (uniformLine p.2).map fun r => ⟨r.2.1, r.1, p.1 + 1, r.2.2⟩

/-- The closed return-type set of the function recogniser. -/
def glslTypes : List String :=
  ["void", "float", "int", "uint", "bool",
   "vec2", "vec3", "vec4", "ivec2", "ivec3", "ivec4",
   "uvec2", "uvec3", "uvec4", "bvec2", "bvec3", "bvec4",
   "mat2", "mat3", "mat4",
   "mat2x2", "mat2x3", "mat2x4", "mat3x2", "mat3x3", "mat3x4",
   "mat4x2", "mat4x3", "mat4x4",
   "sampler2D", "samplerCube", "sampler3D", "sampler2DArray"]

/-- One line of the function-opening recogniser
`^[ \t]*(<type>)\s+(\w+)\s*\(([^)]*)\)\s*\x7b` (modelled within one line;
the concrete sources considered all keep a function opening on one line).
Returns `(returnType, name, rawParams)`. -/
def functionHeaderLine (line : List Char) : Option (String × String × List Char) :=
  let cs := skipTabSpaces line
  let (w, cs) := takeWord cs
  if !glslTypes.contains ⟨w⟩ then none else do
  let cs ← skipWs1 cs
  let (nm, cs) := takeWord cs
  if nm.isEmpty then none else
  let cs := skipWs cs
  match cs with
  | '(' :: tl =>
    let ps := tl.takeWhile (fun c => c ≠ ')')
    (match tl.dropWhile (fun c => c ≠ ')') with
     | ')' :: tl2 =>
       (match skipWs tl2 with
        | '\x7b' :: _ => some (⟨w⟩, ⟨nm⟩, ps)
        | _ => none)
     | _ => none)
  | _ => none

/-- `Parser.findClosingBrace`: the brace matcher that skips line comments,
block comments and double-quoted runs.  A step-by-step translation of the
indexed loop; `fuel` bounds the iteration count (the loop advances the
index every iteration, so `source.length + 1` steps always suffice). -/
def findClosingBraceGo (s : List Char) : Nat → Nat → Int → Bool → Bool → Bool → Bool → Option Nat
  | 0, _, _, _, _, _, _ => none
  | fuel + 1, i, braceCount, inBrace, inString, inLineComment, inBlockComment =>
    match s[i]? with
    | none => none
    | some c =>
      let next := s[i + 1]?
      let prev := if i = 0 then none else s[i - 1]?
      if !inString && !inBlockComment && c = '/' && next = some '/' then
        findClosingBraceGo s fuel (i + 1) braceCount inBrace inString true inBlockComment
      else if inLineComment && c = '\n' then
        findClosingBraceGo s fuel (i + 1) braceCount inBrace inString false inBlockComment
      else if !inString && !inLineComment && c = '/' && next = some '*' then
        findClosingBraceGo s fuel (i + 2) braceCount inBrace inString inLineComment true
      else if inBlockComment && c = '*' && next = some '/' then
        findClosingBraceGo s fuel (i + 2) braceCount inBrace inString inLineComment false
      else if inLineComment || inBlockComment then
        findClosingBraceGo s fuel (i + 1) braceCount inBrace inString inLineComment inBlockComment
      else if c = '"' && prev ≠ some '\\' then
        findClosingBraceGo s fuel (i + 1) braceCount inBrace (!inString) inLineComment inBlockComment
      else if inString then
        findClosingBraceGo s fuel (i + 1) braceCount inBrace inString inLineComment inBlockComment
      else if c = '\x7b' then
        findClosingBraceGo s fuel (i + 1) (braceCount + 1) true inString inLineComment inBlockComment
      else if c = '\x7d' then
        if inBrace && braceCount - 1 = 0 then some i
        else findClosingBraceGo s fuel (i + 1) (braceCount - 1) inBrace inString inLineComment inBlockComment
      else
        findClosingBraceGo s fuel (i + 1) braceCount inBrace inString inLineComment inBlockComment

/-- `findClosingBrace(source, startIndex)`; `none` models the `-1` result. -/
def findClosingBrace (s : List Char) (startIndex : Nat) : Option Nat :=
  findClosingBraceGo s (s.length + 1) startIndex 0 false false false false

/-- JavaScript `\s` including the newline (used inside function bodies). -/
def isJsWs (c : Char) : Bool :=
  isLineWs c || c == '\n'

/-- Control-flow keywords excluded by `findFunctionCalls`. -/
def glslKeywords : List String :=
  ["if", "else", "for", "while", "do", "switch", "case",
   "return", "break", "continue", "discard"]

/-- `Parser.findFunctionCalls`: every identifier occurrence (at a word
boundary) followed by `\s*(` that is not a control-flow keyword, with its
character index inside the body.  Each step consumes at least one
character, so fuel equal to the body length makes the recursion exact. -/
def findFunctionCallsGo : Nat → List Char → Nat → Option Char → List ShaderDep
  | 0, _, _, _ => []
  | _ + 1, [], _, _ => []
  | fuel + 1, c :: rest, i, prev =>
    if isIdentStart c && (match prev with | some p => !isWordChar p | none => true) then
      let w := (c :: rest).takeWhile isWordChar
      let after := (c :: rest).dropWhile isWordChar
      let wsLen := (after.takeWhile isJsWs).length
      match after.drop wsLen with
      | '(' :: tl =>
        (if glslKeywords.contains ⟨w⟩ then [] else [⟨⟨w⟩, .function, i⟩]) ++
          findFunctionCallsGo fuel tl (i + w.length + wsLen + 1) (some '(')
      | _ =>
        findFunctionCallsGo fuel after (i + w.length) w.getLast?
    else
      findFunctionCallsGo fuel rest (i + 1) (some c)

/-- `Parser.findFunctionCalls` over a function body. -/
def findFunctionCalls (body : List Char) : List ShaderDep :=
  findFunctionCallsGo body.length body 0 none

/-- All indices at which `\b<name>\b` occurs in `body`
(the scan of `findUniformCalls` for one uniform). -/
def wordOccurrencesGo (name : List Char) : List Char → Nat → Option Char → List Nat
  | [], _, _ => []
  | c :: rest, i, prev =>
    let here :=
      name.isPrefixOf (c :: rest) &&
      (match prev with | some p => !isWordChar p | none => true) &&
      boundaryAt ((c :: rest).drop name.length)
    (if here then [i] else []) ++ wordOccurrencesGo name rest (i + 1) (some c)

/-- `Parser.findUniformCalls`: for each declared uniform, in declaration
order, every occurrence of its name in the body with its index. -/
def findUniformCalls (body : List Char) (uniforms : List ShaderUniform) :
    List ShaderDep :=
  uniforms.flatMap fun u =>
    (wordOccurrencesGo u.name.data body 0 none).map fun i => ⟨u.name, .uniform, i⟩

/-- The parameter qualifiers stripped by `parseParams`, in the order of
the alternation `(in|out|inout|const|highp|mediump|lowp)`. -/
def paramQualifiers : List String :=
  ["in", "out", "inout", "const", "highp", "mediump", "lowp"]

/-- Try to match one qualifier word (with a trailing word boundary) at the
head of the list; return the remainder after the word and the following
`\s*` on success. -/
def matchQualifier (cs : List Char) : Option (List Char) :=
  (paramQualifiers.filterMap fun q =>
    match expectStr q.data cs with
    | some rest => if boundaryAt rest then some (rest.dropWhile isLineWs) else none
    | none => none).head?

/-- `replace(/\b(in|out|inout|const|highp|mediump|lowp)\b\s*/g, "")`:
delete every boundary-delimited qualifier word and its trailing
whitespace.  Fuel-driven; every step consumes at least one character. -/
def removeQualifiersGo : Nat → List Char → Option Char → List Char
  | 0, cs, _ => cs
  | _ + 1, [], _ => []
  | fuel + 1, c :: rest, prev =>
    if (match prev with | some p => !isWordChar p | none => true) then
      match matchQualifier (c :: rest) with
      | some rest2 => removeQualifiersGo fuel rest2 (some ' ')
      | none => c :: removeQualifiersGo fuel rest (some c)
    else
      c :: removeQualifiersGo fuel rest (some c)

/-- Strip qualifiers from one parameter fragment. -/
def removeQualifiers (cs : List Char) : List Char :=
  removeQualifiersGo cs.length cs none

/-- One comma-separated parameter fragment: trim, strip qualifiers, trim,
then match `^(\w+)\s+(\w+)(?:\[\d*\])?$`. -/
def parseParam (part : List Char) : Option GLSLVariable :=
  let t := trimJs part
  if t.isEmpty then none else
  let w := trimJs (removeQualifiers t)
  let (ty, cs) := takeWord w
  if ty.isEmpty then none else
  match skipWs1 cs with
  | none => none
  | some cs2 =>
    let (nm, cs3) := takeWord cs2
    if nm.isEmpty then none else
    let ok := cs3.isEmpty ||
      (match cs3 with
       | '[' :: tl => (tl.dropWhile Char.isDigit) = [']']
       | _ => false)
    if ok then some ⟨⟨ty⟩, ⟨nm⟩⟩ else none

/-- `Parser.parseParams`. -/
def parseParams (paramsStr : List Char) : List GLSLVariable :=
  if (trimJs paramsStr).isEmpty then []
  else (paramsStr.splitOnP (fun c => c = ',')).filterMap parseParam

/-- Character offset of the start of the (0-based) `i`-th line. -/
def posOfLine (lines : List (List Char)) (i : Nat) : Nat :=
  ((lines.take i).map (fun l => l.length + 1)).sum

/-- `source.indexOf("\x7b", startIndex)`. -/
def findBraceFrom (s : List Char) (start : Nat) : Option Nat :=
  ((s.drop start).findIdx? (fun c => c = '\x7b')).map (· + start)

/-- `Parser.detectFunctions`: for every line whose start matches the
function-opening form, locate the body with the brace matcher (an opening
whose brace is never closed is skipped), parse the parameters, and scan
the body for function and uniform references.  Dependencies are the
function calls followed by the uniform references, as `[...fCalls,
...uCalls]` builds them. -/
def detectFunctions (source : List Char) (uniforms : List ShaderUniform) :
    List ShaderFunction :=
  let lines := splitLinesCh source
  lines.enum.filterMap fun p =>
    match functionHeaderLine p.2 with
    | none => none
    | some (ty, nm, ps) =>
      let startIndex := posOfLine lines p.1
      match findBraceFrom source startIndex with
      | none => none
      | some bodyStart =>
        match findClosingBrace source bodyStart with
        | none => none
        | some bodyEnd =>
          let body := (source.drop bodyStart).take (bodyEnd + 1 - bodyStart)
          some ⟨nm, ty, parseParams (trimJs ps), ⟨body⟩,
                findFunctionCalls body ++ findUniformCalls body uniforms, p.1 + 1⟩

/-- The computation performed by `Parser.parse` on a cache miss: version,
imports, uniforms, then functions (which need the uniform list). -/
def computeParse (source : String) : Except Fault ShaderParseResult := do
  let cs := source.data
  let version := detectVersion cs
  let imports ← detectImports cs
  let uniforms := detectUniforms cs
  let functions := detectFunctions cs uniforms
  .ok ⟨version, imports, uniforms, functions⟩

end Parser

/-- The mutable state of a `Parser` object: its source string and the
memoised parse result (`parsed`, `null` until the first successful
`parse()`). -/
structure ParserState where
  source : String
  parsed : Option ShaderParseResult := none
  deriving Repr, DecidableEq

namespace ParserState

/-- `new Parser(source)`. -/
def mk' (source : String) : ParserState := ⟨source, none⟩

/-- `Parser.parse()`: return the memo when present, otherwise compute,
store and return.  A thrown fault leaves the memo unset. -/
def parse (p : ParserState) : Except Fault (ShaderParseResult × ParserState) :=
  match p.parsed with
  | some r => .ok (r, p)
  | none =>
    match Parser.computeParse p.source with
    | .ok r => .ok (r, { p with parsed := some r })
    | .error e => .error e

/-- `Parser.setSource`: replace the source and drop the memo. -/
def setSource (p : ParserState) (newSource : String) : ParserState :=
  { p with source := newSource, parsed := none }

/-- `Parser.version()`: recomputed cheaply, never memoised. -/
def version (p : ParserState) : Nat :=
  Parser.detectVersion p.source.data

end ParserState

/-! ## Ordered key maps (JavaScript `Map` / plain-object semantics) -/

/-- Lookup by key. -/
def getKey {α : Type} (m : List (String × α)) (k : String) : Option α :=
  (m.find? (fun p => p.1 = k)).map (·.2)

/-- `Map.set` / property assignment: replace in place (keeping the original
insertion position), append a new key at the end. -/
def setKey {α : Type} : List (String × α) → String → α → List (String × α)
  | [], k, v => [(k, v)]
  | (k', v') :: rest, k, v =>
    if k' = k then (k, v) :: rest else (k', v') :: setKey rest k v

/-- `Map.has` / `key in object`. -/
def hasKey {α : Type} (m : List (String × α)) (k : String) : Bool :=
  (getKey m k).isSome

/-- `Map.delete` / the `delete` operator. -/
def delKey {α : Type} (m : List (String × α)) (k : String) : List (String × α) :=
  m.filter (fun p => p.1 ≠ k)

/-! ## Globals (src/src/globals.ts) -/

/-- The five built-in uniforms with their fixed types (`defaultUniforms`
in src/src/defaults.ts and `uniforms` in src/src/globals.ts carry the
same five entries). -/
def defaultUniformsList : List (String × String) :=
  [("u_resolution", "vec2"), ("u_time", "float"), ("u_delta", "float"),
   ("u_mouse", "vec2"), ("u_frame", "int")]

/-- `UNIFORMS.has name` — the set of built-in uniform names that are never
renamed during preprocessing. -/
def builtinUniformNames : List String :=
  defaultUniformsList.map (·.1)

/-! ## Module options -/

/-- `ModuleOption`: `{ uniform, default? }`.  Defaults are numbers in every
bundled module; they are modelled as rationals. -/
structure ModuleOption where
  uniform : String
  default : Option ℚ := none
  deriving Repr, DecidableEq

/-- `ModuleOptionsByFunction`: function name → (option name → option). -/
def Options : Type := List (String × List (String × ModuleOption))

instance : DecidableEq Options := by
  unfold Options
  infer_instance

/-! ## Compilable and Module state -/

/-- The requirements bag: insertion-ordered maps of uniforms and
functions collected from imports. -/
structure Requirements where
  uniforms : List (String × ShaderUniform) := []
  functions : List (String × ShaderFunction) := []
  deriving Repr, DecidableEq

/-- The state of a `Compilable` object: two parsers over the same string,
the compiled flag, and the requirements bag. -/
structure Compilable where
  original : ParserState
  compiled : ParserState
  isCompiled : Bool := false
  requirements : Requirements := {}
  deriving Repr, DecidableEq

/-- `new Compilable(source)`: both parsers start on the same source; the
requirements bag starts empty.  (The constructor takes only the source:
an extra argument passed by a subclass is discarded by JavaScript call
semantics.) -/
def Compilable.mk' (source : String) : Compilable :=
  ⟨ParserState.mk' source, ParserState.mk' source, false, {}⟩

/-- A `Module`: a named `Compilable` with an options map. -/
structure Module where
  name : String
  comp : Compilable
  options : List (String × List (String × ModuleOption))
  deriving Repr, DecidableEq

/-- `ModuleFunctionExtraction`. -/
structure ModuleFunctionExtraction where
  function : ShaderFunction
  depFunctions : List ShaderFunction
  depUniforms : List ShaderUniform
  deriving Repr, DecidableEq

/-- The process-wide state: the design-time registry, the runtime
registry, and the injected stream of random suffixes (one consumed per
processed import, modelling `Math.random().toString(36).substring(2, 8)`). -/
structure St where
  modules : List (String × Module) := []
  runtime : List (String × Module) := []
  suffixes : List String := []
  deriving Repr, DecidableEq

/-! ## ModuleRegistry (src/src/tools/module_registry.ts) -/

namespace ModuleRegistry

/-- `register(name, module)`: `this.modules.set(name, module)` — total,
replaces silently. -/
def register (reg : List (String × Module)) (name : String) (m : Module) :
    List (String × Module) :=
  setKey reg name m

/-- `resolve(name)`: faults if absent. -/
def resolve (reg : List (String × Module)) (name : String) :
    Except Fault Module :=
  match getKey reg name with
  | some m => .ok m
  | none => .error (.moduleNotFound name)

/-- `has(name)`. -/
def has (reg : List (String × Module)) (name : String) : Bool :=
  hasKey reg name

/-- `remove(name)`. -/
def remove (reg : List (String × Module)) (name : String) :
    List (String × Module) :=
  delKey reg name

/-- `clear()`. -/
def clear (_ : List (String × Module)) : List (String × Module) := []

/-- `resolveOptions(func)`: the first registered module (in insertion
order) whose options map has the key wins; `null` when none has it. -/
def resolveOptions (reg : List (String × Module)) (func : String) :
    Option (List (String × ModuleOption)) :=
  (reg.filterMap (fun p => getKey p.2.options func)).head?

end ModuleRegistry

/-! ## Module construction (src/src/tools/module.ts) -/

namespace Module

/-- `Module.resolveOptions` (the constructor normalisation): when an
`options.default` entry exists, every parsed function other than `main`
and `default` receives the default entries it does not override, and the
`default` key is removed. -/
def resolveOptionsNorm (orig : ParserState)
    (options : List (String × List (String × ModuleOption))) :
    Except Fault (List (String × List (String × ModuleOption)) × ParserState) :=
  match getKey options "default" with
  | none => .ok (options, orig)
  | some defaultConfig => do
    let (parsed, orig') ← orig.parse
    let opts := parsed.functions.foldl (fun opts fn =>
      if fn.name = "main" || fn.name = "default" then opts
      else
        match getKey opts fn.name with
        | some fnOptions =>
          let fnOptions' := defaultConfig.foldl (fun fo p =>
            if hasKey fo p.1 then fo else fo ++ [p]) fnOptions
          setKey opts fn.name fnOptions'
        | none => setKey opts fn.name defaultConfig) options
    .ok (delKey opts "default", orig')

/-- `new Module(name, source, options)`. -/
def mk' (name source : String)
    (options : List (String × List (String × ModuleOption))) :
    Except Fault Module :=
  let base := Compilable.mk' source
  match resolveOptionsNorm base.original options with
  | .error e => .error e
  | .ok (opts, orig') => .ok ⟨name, { base with original := orig' }, opts⟩

/-- `Module.copy()`: a fresh `Module` over the original source with a deep
clone of the options (value copy). -/
def copy (m : Module) : Except Fault Module :=
  mk' m.name m.comp.original.source m.options

/-- `Module.define(definition)`: reject reserved names, construct, reject
a duplicate registered name, then register into the design-time registry.
(The construction happens before the duplicate check, as in the source.) -/
def define (st : St) (name source : String)
    (options : List (String × List (String × ModuleOption))) :
    Except Fault (Module × St) :=
  if name = "sandbox" || String.startsWith name "sandbox/" then
    .error (.forbiddenModuleName name)
  else
    match mk' name source options with
    | .error e => .error e
    | .ok m =>
      if ModuleRegistry.has st.modules name then
        .error (.overwriteModule name)
      else
        .ok (m, { st with modules := ModuleRegistry.register st.modules name m })

end Module

/-! ## Rewriting (Compilable.rewriteFunction / applyRewrites) -/

/-- A rewrite operation `{ index, oldText, newText }`. -/
structure RewriteOp where
  index : Nat
  oldText : String
  newText : String
  deriving Repr, DecidableEq

/-- Stable insertion of an op into a list sorted by descending index
(equal indices keep their relative order, as `Array.prototype.sort` is
stable). -/
def insertOpDesc (op : RewriteOp) : List RewriteOp → List RewriteOp
  | [] => [op]
  | o :: rest =>
    if op.index > o.index then op :: o :: rest else o :: insertOpDesc op rest

/-- `[...ops].sort((a, b) => b.index - a.index)`. -/
def sortOpsDesc (ops : List RewriteOp) : List RewriteOp :=
  ops.foldl (fun acc op => insertOpDesc op acc) []

/-- `Compilable.applyRewrites`: apply the operations from the highest
index down, so earlier indices stay valid. -/
def applyRewrites (text : List Char) (ops : List RewriteOp) : List Char :=
  (sortOpsDesc ops).foldl
    (fun result op =>
      result.take op.index ++ op.newText.data ++
        result.drop (op.index + op.oldText.length))
    text

/-- The rewrite operations collected by `Compilable.rewriteFunction`: one
per recorded dependency reference, namespacing uniform references (except
built-ins) and helper-function references with the prefix. -/
def rewriteOps (func : ShaderFunction) (uniformNames helperNames : List String)
    (pfx : String) : List RewriteOp :=
  func.dependencies.filterMap fun dep =>
    match dep.type with
    | .uniform =>
      if uniformNames.contains dep.name then
        if builtinUniformNames.contains dep.name then none
        else some ⟨dep.index, dep.name, pfx ++ "_" ++ dep.name⟩
      else none
    | .function =>
      if helperNames.contains dep.name then
        some ⟨dep.index, dep.name, pfx ++ "_" ++ dep.name⟩
      else none

/-- `Compilable.rewriteFunction`: rewrite the body and rename the function
(`alias` itself for the imported main function, `prefix_name` for a
helper).  The prefix is `data.unique` when non-empty, else the alias. -/
def rewriteFunction (func : ShaderFunction) (al : String)
    (uniforms : List ShaderUniform) (helpers : List ShaderFunction)
    (rename : Bool) (unique : String) : ShaderFunction :=
  let pfx := if unique ≠ "" then unique else al
  let ops := rewriteOps func (uniforms.map (·.name)) (helpers.map (·.name)) pfx
  let newBody := applyRewrites func.body.data ops
  let newName := if rename then al else pfx ++ "_" ++ func.name
  { func with name := newName, body := ⟨newBody⟩ }

/-! ## Dependency collection (Module.collectDependencies) -/

/-- One step of the dependency loop of `Module.collectDependencies`: an
unvisited function dependency that resolves in the scope is visited,
collected and recursed into (through `recurse`, the lower-fuel walk); a
resolving uniform dependency is collected once. -/
def collectStep (fnScope : List ShaderFunction) (uScope : List ShaderUniform)
    (recurse : ShaderFunction → List (String × ShaderFunction) →
      List (String × ShaderUniform) → List String →
      List (String × ShaderFunction) × List (String × ShaderUniform) × List String)
    (acc : List (String × ShaderFunction) × List (String × ShaderUniform) × List String)
    (dep : ShaderDep) :
    List (String × ShaderFunction) × List (String × ShaderUniform) × List String :=
  match dep.type with
  | .function =>
    if acc.2.2.contains dep.name then acc
    else
      match fnScope.find? (fun f => f.name = dep.name) with
      | some depFunc =>
        recurse depFunc (setKey acc.1 dep.name depFunc) acc.2.1 (acc.2.2 ++ [dep.name])
      | none => acc
  | .uniform =>
    match uScope.find? (fun u => u.name = dep.name) with
    | some depUniform =>
      if hasKey acc.2.1 dep.name then acc
      else (acc.1, acc.2.1 ++ [(dep.name, depUniform)], acc.2.2)
    | none => acc

/-- `Module.collectDependencies`: walk the recorded dependencies of the
current function through `collectStep`.  The recursion depth is bounded
by the number of scope functions (each nested call first adds a fresh
scope-function name to `visited`), so fuel `scope.length + 1` makes the
recursion exact. -/
def collectDeps :
    Nat → ShaderFunction → List ShaderFunction → List ShaderUniform →
    List (String × ShaderFunction) → List (String × ShaderUniform) →
    List String →
    List (String × ShaderFunction) × List (String × ShaderUniform) × List String
  | 0, _, _, _, cf, cu, vis => (cf, cu, vis)
  | fuel + 1, current, fnScope, uScope, cf, cu, vis =>
    current.dependencies.foldl
      (collectStep fnScope uScope
        (fun g cf2 cu2 vis2 => collectDeps fuel g fnScope uScope cf2 cu2 vis2))
      (cf, cu, vis)

/-! ## Import processing (Compilable.processExtraction) -/

/-- The namespaced requirement name for a collected uniform:
`` `${uniqueAlias}_${uniform.name}${uniform.arrayNum ? `[...]` : ""}` ``
(an `arrayNum` of `0` is falsy and adds no brackets). -/
def namespacedUniformName (uniqueAlias : String) (u : ShaderUniform) : String :=
  uniqueAlias ++ "_" ++ u.name ++
    (match u.arrayNum with
     | some n => if n = 0 then "" else "[" ++ toString n ++ "]"
     | none => "")

/-- One step of the uniform-collection loop of
`Compilable.processExtraction`: skip built-ins; otherwise rewrite the
first matching option entry of the copy's options for the imported
function and add the uniform to the requirements under its namespaced
name. -/
def processUniformStep (uniqueAlias mainName : String)
    (acc : Requirements × List (String × List (String × ModuleOption)))
    (uniform : ShaderUniform) :
    Requirements × List (String × List (String × ModuleOption)) :=
  let reqs := acc.1
  let options := acc.2
  if builtinUniformNames.contains uniform.name then (reqs, options)
  else
    let nName := namespacedUniformName uniqueAlias uniform
    let options2 :=
      match getKey options mainName with
      | some conf =>
        (match conf.find? (fun p => p.2.uniform = uniform.name) with
         | some kv =>
           setKey options mainName
             (setKey conf kv.1 { kv.2 with uniform := uniqueAlias ++ "_" ++ uniform.name })
         | none => options)
      | none => options
    ({ reqs with uniforms := setKey reqs.uniforms nName { uniform with name := nName } },
     options2)

/-- `Compilable.processExtraction`: rewrite the helpers (first) and the
main function into the requirements bag, collect the non-built-in
uniforms under namespaced keys, rewrite the matching option entries of
the module copy, and finally move the options key from the original
function name to the alias when they differ. -/
def processExtraction (extraction : ModuleFunctionExtraction) (al : String)
    (options : List (String × List (String × ModuleOption)))
    (suffix : String) (reqs : Requirements) :
    Requirements × List (String × List (String × ModuleOption)) :=
  let mainFunc := extraction.function
  let uniqueAlias := al ++ "_" ++ suffix
  let reqs := extraction.depFunctions.foldl
    (fun reqs helperFunc =>
      let rewritten := rewriteFunction helperFunc al extraction.depUniforms
        extraction.depFunctions false uniqueAlias
      { reqs with functions := setKey reqs.functions rewritten.name rewritten })
    reqs
  let rewrittenMain := rewriteFunction mainFunc al extraction.depUniforms
    extraction.depFunctions true uniqueAlias
  let reqs :=
    { reqs with functions := setKey reqs.functions rewrittenMain.name rewrittenMain }
  let acc := extraction.depUniforms.foldl
    (processUniformStep uniqueAlias mainFunc.name) (reqs, options)
  let reqs := acc.1
  let options := acc.2
  let options :=
    match getKey options mainFunc.name with
    | some v =>
      if al ≠ mainFunc.name then delKey (setKey options al v) mainFunc.name
      else options
    | none => options
  (reqs, options)

/-! ## Building the compiled text (Compilable.build) -/

/-- `Compilable.removeImportLines`: drop every line whose 1-based number
is an import line, and any blank line that immediately follows an import
line. -/
def removeImportLines (source : List Char) (imports : List ShaderImport) :
    List Char :=
  let lines := splitLinesCh source
  let importLineNumbers := imports.map (·.line)
  joinLinesCh <| (lines.enum.filter fun p =>
    let shouldRemove := importLineNumbers.contains (p.1 + 1)
    if !shouldRemove && (trimJs p.2).isEmpty && p.1 > 0 then
      if importLineNumbers.contains p.1 then false else true
    else !shouldRemove).map (·.2)

/-- The header scan of `findInsertionPointForUniforms` when no uniform is
declared: skip `#version`, `precision`, and leading blank/comment lines. -/
def headerScan : List (List Char) → Nat → Nat → Nat
  | [], _, acc => acc
  | l :: rest, i, acc =>
    let t := trimJs l
    if "#version".data.isPrefixOf t then headerScan rest (i + 1) (i + 1)
    else if "precision ".data.isPrefixOf t then headerScan rest (i + 1) (i + 1)
    else if t.isEmpty || "//".data.isPrefixOf t then
      (if acc = i then headerScan rest (i + 1) (i + 1)
       else headerScan rest (i + 1) acc)
    else acc

/-- `Compilable.findInsertionPointForUniforms`: parse the (already
import-stripped) text; insert after the last existing uniform line if
any, else after the header; returns a character position. -/
def findInsertionPointForUniforms (source : List Char) : Except Fault Nat := do
  let (content, _) ← (ParserState.mk' ⟨source⟩).parse
  let lines := splitLinesCh source
  let maxLine := (content.uniforms.map (·.line)).foldl max 0
  let insertAfterLine :=
    match content.uniforms.find? (fun u => u.line = maxLine) with
    | some u => if u.line ≠ 0 then u.line else headerScan lines 0 0
    | none => headerScan lines 0 0
  .ok (Parser.posOfLine lines insertAfterLine)

/-- `Compilable.findInsertionPointForFunctions`: the character position of
the line just before the first declared function; faults when the text
declares no function at all. -/
def findInsertionPointForFunctions (source : List Char) : Except Fault Nat := do
  let (content, _) ← (ParserState.mk' ⟨source⟩).parse
  let lines := splitLinesCh source
  match content.functions.map (·.line) with
  | [] => .error .shaderWithoutFunction
  | x :: xs =>
    let minLine := xs.foldl min x
    match content.functions.find? (fun f => f.line = minLine) with
    | some f => .ok (Parser.posOfLine lines (f.line - 2))
    | none => .error .shaderWithoutFunction

/-- `Compilable.checkUniformsPresence`: which required uniforms are absent
from the original parse; a type conflict on an existing name faults with
the required type as `expectedType` and the declared type as `actualType`. -/
def checkUniformsPresence (content : ShaderParseResult) :
    List (String × ShaderUniform) → Except Fault (List ShaderUniform)
  | [] => .ok []
  | (name, uniform) :: rest =>
    match content.uniforms.find? (fun u => u.name = name) with
    | none => do
      let ms ← checkUniformsPresence content rest
      .ok (uniform :: ms)
    | some existing =>
      if existing.type ≠ uniform.type then
        .error (.requirementMismatch "uniform" name uniform.type existing.type)
      else checkUniformsPresence content rest

/-- `Compilable.checkFunctionsPresence` (same shape, on return types). -/
def checkFunctionsPresence (content : ShaderParseResult) :
    List (String × ShaderFunction) → Except Fault (List ShaderFunction)
  | [] => .ok []
  | (name, func) :: rest =>
    match content.functions.find? (fun f => f.name = name) with
    | none => do
      let ms ← checkFunctionsPresence content rest
      .ok (func :: ms)
    | some existing =>
      if existing.type ≠ func.type then
        .error (.requirementMismatch "function" name func.type existing.type)
      else checkFunctionsPresence content rest

/-- `Compilable.generateUniformsCode`: one declaration line per missing
required uniform. -/
def generateUniformsCode (content : ShaderParseResult) (reqs : Requirements) :
    Except Fault String :=
  if reqs.uniforms.length > 0 then do
    let missing ← checkUniformsPresence content reqs.uniforms
    let parts := missing.map fun u => "uniform " ++ u.type ++ " " ++ u.name ++ ";"
    if parts.isEmpty then .ok "" else .ok (String.intercalate "\n" parts ++ "\n")
  else .ok ""

/-- `Compilable.generateFunctionCode`: each missing required function
rendered as `\n<type> <name>(<params>) <body>`. -/
def generateFunctionCode (content : ShaderParseResult) (reqs : Requirements) :
    Except Fault String :=
  if reqs.functions.length > 0 then do
    let missing ← checkFunctionsPresence content reqs.functions
    let parts := missing.map fun f =>
      let params := String.intercalate ", " (f.params.map fun p => p.type ++ " " ++ p.name)
      "\n" ++ f.type ++ " " ++ f.name ++ "(" ++ params ++ ") " ++ f.body
    if parts.isEmpty then .ok "" else .ok (String.intercalate "\n" parts ++ "\n")
  else .ok ""

/-- `result.replace(/\n\x7b3,\x7d/g, "\n\n")`: collapse every run of three
or more newlines to exactly two.  Fuel-driven (each step consumes at
least one character). -/
def collapseNewlinesGo : Nat → List Char → List Char
  | 0, cs => cs
  | _ + 1, [] => []
  | fuel + 1, c :: rest =>
    if c = '\n' then
      let run := 1 + (rest.takeWhile (fun c => c = '\n')).length
      let rest2 := rest.dropWhile (fun c => c = '\n')
      (if run ≥ 3 then ['\n', '\n'] else List.replicate run '\n') ++
        collapseNewlinesGo fuel rest2
    else c :: collapseNewlinesGo fuel rest

/-- Collapse runs of three or more newlines. -/
def collapseNewlines (cs : List Char) : List Char :=
  collapseNewlinesGo cs.length cs

/-- `Compilable.build`: strip import lines, splice the generated uniform
block after the existing uniforms (or the header), splice the generated
functions before the first declared function, collapse blank runs. -/
def buildC (c : Compilable) (content : ShaderParseResult) : Except Fault String := do
  let result := removeImportLines c.original.source.data content.imports
  let ipU ← findInsertionPointForUniforms result
  let genU ← generateUniformsCode content c.requirements
  let result :=
    if genU ≠ "" then result.take ipU ++ genU.data ++ '\n' :: result.drop ipU
    else result
  let ipF ← findInsertionPointForFunctions result
  let genF ← generateFunctionCode content c.requirements
  let result :=
    if genF ≠ "" then result.take ipF ++ genF.data ++ result.drop ipF
    else result
  .ok ⟨collapseNewlines result⟩

/-! ## compile / processImports / extract

`Compilable.compile` resolves each import in the design-time registry and
calls `Module.extract`, which itself compiles the module first (a module
source may import from other modules).  The mutual recursion is grounded
by a fuel parameter: `compileFuel (fuel + 1)` hands `compileFuel fuel` to
the extraction it performs, so a chain of `d` nested modules needs fuel
`d + 1`; the JavaScript original would not terminate on cyclic module
imports, which surface here as `Fault.outOfFuel`. -/

/-- The tail of `Module.extract(name)` after the compiled text has been
parsed: memoise the parse on the module, locate the requested function,
and collect its transitive dependencies. -/
def extractFinish (m1 : Module) (name : String) (st1 : St)
    (pr : ShaderParseResult × ParserState) :
    Except Fault (ModuleFunctionExtraction × Module × St) :=
  let m2 := { m1 with comp := { m1.comp with compiled := pr.2 } }
  match pr.1.functions.find? (fun f => f.name = name) with
  | none => .error (.methodNotFound m2.name name)
  | some method =>
    .ok (⟨method,
      ((collectDeps (pr.1.functions.length + 1) method pr.1.functions
        pr.1.uniforms [] [] [name]).1).map (·.2),
      ((collectDeps (pr.1.functions.length + 1) method pr.1.functions
        pr.1.uniforms [] [] [name]).2.1).map (·.2)⟩,
      m2, st1)

/-- `Module.extract(name)` given the compile function for this fuel level:
compile, reject `main`/`default`, then parse and finish. -/
def extractGiven
    (compileAt : Compilable → St → Except Fault (String × Compilable × St))
    (m : Module) (name : String) (st : St) :
    Except Fault (ModuleFunctionExtraction × Module × St) :=
  bindE (compileAt m.comp st) fun cs =>
    let m1 := { m with comp := cs.2.1 }
    if name = "main" then .error (.attemptedImportMain m1.name)
    else if name = "default" then .error (.attemptedImportDefault m1.name)
    else bindE m1.comp.compiled.parse (extractFinish m1 name cs.2.2)

/-- `Compilable.processImports` given the extract function for this fuel
level: resolve each import in order, extract, copy the module, process
the extraction (consuming one random suffix), and register the copy in
the runtime registry under the module name. -/
def processImportsGiven
    (extractAt : Module → String → St → Except Fault (ModuleFunctionExtraction × Module × St)) :
    List ShaderImport → Compilable → St → Except Fault (Compilable × St)
  | [], c, st => .ok (c, st)
  | imp :: rest, c, st =>
    bindE (ModuleRegistry.resolve st.modules imp.module) fun module =>
      bindE (extractAt module imp.name st) fun ems =>
        let st3 := { ems.2.2 with modules := setKey ems.2.2.modules imp.module ems.2.1 }
        bindE ems.2.1.copy fun copy =>
          let suffix := st3.suffixes.headD ""
          let st4 := { st3 with suffixes := st3.suffixes.tail }
          let rc :=
            processExtraction ems.1 imp.aliasName copy.options suffix c.requirements
          let c2 := { c with requirements := rc.1 }
          let copy2 := { copy with options := rc.2 }
          let st5 := { st4 with runtime := ModuleRegistry.register st4.runtime imp.module copy2 }
          processImportsGiven extractAt rest c2 st5

/-- One `compile()` call, parameterised by the import processor: return
the cached text when already compiled, else parse, process imports when
present, build, store, and flip the flag. -/
def compileStep
    (processImportsAt : List ShaderImport → Compilable → St → Except Fault (Compilable × St))
    (c : Compilable) (st : St) : Except Fault (String × Compilable × St) :=
  if c.isCompiled then .ok (c.compiled.source, c, st)
  else
    bindE c.original.parse fun pr =>
      let c1 := { c with original := pr.2 }
      bindE
        (if pr.1.imports.length > 0 then processImportsAt pr.1.imports c1 st
         else .ok (c1, st)) fun cs =>
        bindE (buildC cs.1 pr.1) fun built =>
          .ok (built,
            { cs.1 with compiled := cs.1.compiled.setSource built, isCompiled := true },
            cs.2)

/-- `compile()` with fuel for the nested-module recursion. -/
def compileFuel : Nat → Compilable → St → Except Fault (String × Compilable × St)
  | 0, _, _ => .error .outOfFuel
  | fuel + 1, c, st =>
    compileStep (processImportsGiven (extractGiven (compileFuel fuel))) c st

/-- `Module.extract` at a given fuel level. -/
def Module.extract (fuel : Nat) (m : Module) (name : String) (st : St) :
    Except Fault (ModuleFunctionExtraction × Module × St) :=
  extractGiven (compileFuel fuel) m name st

/-! ## Shader (src/src/tools/shader.ts) -/

/-- The `Shader` constructor: it builds the list of built-in uniform
requirements and passes it as a second argument to `super`, but the
`Compilable` constructor accepts only the source, so under JavaScript
call semantics the extra argument is discarded and the requirements bag
starts empty. -/
def Shader.mk' (source : String) : Compilable :=
  let _uniforms : List ShaderUniform :=
    defaultUniformsList.map fun p => { name := p.1, type := p.2, line := 0 }
  Compilable.mk' source

/-! ## Clock (src/src/tools/clock.ts)

Timestamps (`performance.now()`, in milliseconds) are passed explicitly;
numbers are modelled as rationals.  The render callback receives a state
snapshot and cannot mutate the clock, so only its presence is tracked. -/

/-- The full mutable state of a `Clock`. -/
structure Clock where
  time : ℚ := 0
  delta : ℚ := 0
  frame : Nat := 0
  running : Bool := false
  fps : ℚ := 0
  startTime : ℚ := 0
  lastTime : ℚ := 0
  maxFps : ℚ := 0
  hasCallback : Bool := false
  rafPending : Bool := false
  deriving Repr, DecidableEq

namespace Clock

/-- `start(callback)`: idempotent while running; on a fresh clock the
origin is "now", on a resume it is "now minus accumulated seconds"; a
tick is scheduled. -/
def start (c : Clock) (now : ℚ) : Clock :=
  if c.running then c
  else
    { c with
      hasCallback := true
      running := true
      startTime := if c.frame = 0 then now else now - c.time * 1000
      lastTime := now
      rafPending := true }

/-- `stop()`: cancel the pending tick; `time`, `delta`, `frame` are kept. -/
def stop (c : Clock) : Clock :=
  if !c.running then c
  else { c with running := false, rafPending := false }

/-- `reset()`: stop and zero the counters. -/
def reset (c : Clock) : Clock :=
  { c.stop with time := 0, delta := 0, frame := 0, fps := 0 }

/-- `tick(dt)`: manual single step — record the delta, advance the time,
bump the frame counter (the callback then receives a snapshot). -/
def tick (c : Clock) (dt : ℚ) : Clock :=
  { c with delta := dt, time := c.time + dt, frame := c.frame + 1 }

/-- `setTime(t)`. -/
def setTime (c : Clock) (t : ℚ) : Clock :=
  { c with time := t }

/-- `setMaxFps(n)`. -/
def setMaxFps (c : Clock) (n : ℚ) : Clock :=
  { c with maxFps := n }

/-- The `loop(timestamp)` frame handler: skip below the minimum frame
time, otherwise update delta, smoothed fps, wall-clock time and frame,
and schedule the next tick. -/
def loop (c : Clock) (timestamp : ℚ) : Clock :=
  if !c.running then c
  else if c.maxFps > 0 && timestamp - c.lastTime < 1000 / c.maxFps then
    { c with rafPending := true }
  else
    let d := (timestamp - c.lastTime) / 1000
    let instantFps := if d > 0 then 1 / d else 0
    { c with
      delta := d
      lastTime := timestamp
      fps := c.fps * (19 / 20) + instantFps * (1 / 20)
      time := (timestamp - c.startTime) / 1000
      frame := c.frame + 1
      rafPending := true }

end Clock

/-! ## Concrete scenario inputs

Each scenario is a module definition (registered in a design-time
registry), a shader source, and an injected suffix stream; they
instantiate the spec's scenarios on the embedded pipeline. -/

/-- A module with one uniform and one function (`effect`), plus an option
`strength` bound to its uniform — the Scenario B module. -/
def aliasModuleSrc : String :=
  "uniform float u_strength;\nvec3 effect(float t) \x7b return vec3(t * u_strength); \x7d"

/-- The options map of the Scenario B module. -/
def aliasOpts : List (String × List (String × ModuleOption)) :=
  [("effect", [("strength", ⟨"u_strength", some 1⟩)])]

/-- The module value `new Module("m", aliasModuleSrc, aliasOpts)`
produces (see `aliasModule_eq_mk` below). -/
def aliasModule : Module :=
  ⟨"m", Compilable.mk' aliasModuleSrc, aliasOpts⟩

/-- Scenario B state: the module registered at design time; two suffixes
for the two imports. -/
def aliasSt : St :=
  { modules := [("m", aliasModule)], suffixes := ["aaaaaa", "bbbbbb"] }

/-- Scenario B shader: the same function imported under two aliases. -/
def aliasShaderSrc : String :=
  "#import effect as soft from \x27m\x27\n#import effect as hard from \x27m\x27\nvoid main() \x7b vec3 a = soft(0.5); vec3 b = hard(1.0); \x7d"

/-- A shader source that never references or declares any uniform. -/
def plainMainSrc : String := "void main() \x7b\x7d"

/-- Scenario C module: `fbm` calls `noise` calls `hash` (`turbulence`
omitted; only the chain matters). -/
def chainSrc : String :=
  "float hash(float p) \x7b return p; \x7d\nfloat noise(float p) \x7b return hash(p) * 2.0; \x7d\nfloat fbm(float p) \x7b return noise(p) + 1.0; \x7d"

/-- Scenario C state. -/
def chainSt : St :=
  { modules := [("m", ⟨"m", Compilable.mk' chainSrc, []⟩)], suffixes := ["aaaaaa"] }

/-- Scenario C shader: import only `fbm`. -/
def chainShaderSrc : String :=
  "#import fbm from \x27m\x27\nvoid main() \x7b float x = fbm(0.5); \x7d"

/-- A module with one non-built-in uniform, for the type-conflict
scenario. -/
def conflictModuleSrc : String :=
  "uniform float u_s;\nvec3 effect(float t) \x7b return vec3(t * u_s); \x7d"

/-- Type-conflict state (suffix fixed to `abc123`). -/
def conflictSt : St :=
  { modules := [("m", ⟨"m", Compilable.mk' conflictModuleSrc, []⟩)],
    suffixes := ["abc123"] }

/-- Type-conflict shader: the author declares, with type `vec4`, the very
name the import will require with type `float`. -/
def conflictShaderSrc : String :=
  "#import effect as soft from \x27m\x27\nuniform vec4 soft_abc123_u_s;\nvoid main() \x7b vec3 a = soft(0.5); \x7d"

/-- A module with a single plain function. -/
def simpleModuleSrc : String :=
  "vec3 effect(float t) \x7b return vec3(t); \x7d"

/-- State for the form-feed scenario. -/
def formFeedSt : St :=
  { modules := [("m", ⟨"m", Compilable.mk' simpleModuleSrc, []⟩)],
    suffixes := ["aaaaaa"] }

/-- A shader whose second line starts with a form feed (`\x0C`) before
`#import`: the parser's `[ \t]*` anchors do not reach it, so it is
neither a valid import nor an import-syntax fault. -/
def formFeedShaderSrc : String :=
  "#import effect from \x27m\x27\n\x0C#import effect from \x27m\x27\nvoid main() \x7b vec3 a = effect(0.5); \x7d"

/-- A module that references the built-in `u_time` along with its own
uniform, for the built-in-namespacing scenario. -/
def builtinModuleSrc : String :=
  "uniform float u_s;\nvec3 effect(float t) \x7b return vec3(t * u_s + u_time); \x7d"

/-- State for the built-in-namespacing scenario. -/
def builtinSt : St :=
  { modules := [("m", ⟨"m", Compilable.mk' builtinModuleSrc, []⟩)],
    suffixes := ["aaaaaa"] }

/-- Shader declaring `u_time` itself and importing the effect. -/
def builtinShaderSrc : String :=
  "uniform float u_time;\n#import effect as soft from \x27m\x27\nvoid main() \x7b vec3 a = soft(0.5); \x7d"

/-- The parse result of `plainMainSrc`. -/
def plainMainParse : ShaderParseResult :=
  ⟨1, [], [], [⟨"main", "void", [], "\x7b\x7d", [], 1⟩]⟩

/-- The parser state after a successful `parse()` of `plainMainSrc`. -/
def plainMainMemo : ParserState :=
  ⟨plainMainSrc, some plainMainParse⟩

/-- Scenario C compiled and re-parsed: each output function with its line
and the names of its function dependencies. -/
def chainReport : Except Fault (List (String × Nat × List String)) := do
  let r ← compileFuel 3 (Shader.mk' chainShaderSrc) chainSt
  let p ← Parser.computeParse r.1
  pure <| p.functions.map fun f =>
    (f.name, f.line,
      (f.dependencies.filter (fun d => d.type == DepType.function)).map (fun d => d.name))

/-- Built-in scenario compiled and re-parsed: the declared uniforms of
the output, in order. -/
def builtinReport : Except Fault (List (String × String)) := do
  let r ← compileFuel 3 (Shader.mk' builtinShaderSrc) builtinSt
  let p ← Parser.computeParse r.1
  pure <| p.uniforms.map fun u => (u.name, u.type)

/-! ## Spec-side predicates -/

/-- One line matching the spec's `^\s*#import\b` (JavaScript `\s`,
restricted as everywhere to the whitespace characters a line can hold). -/
def claimWsImportLineMatch (line : List Char) : Bool :=
  match expectStr "#import".data (skipWs line) with
  | some rest => boundaryAt rest
  | none => false

/-- One line matching `^[ \t]*#import\b` — the whitespace the parser's
recognisers actually accept. -/
def tabSpaceImportLineMatch (line : List Char) : Bool :=
  match expectStr "#import".data (skipTabSpaces line) with
  | some rest => boundaryAt rest
  | none => false

/-- A call edge of the dependency walk: `f` records a function dependency
on `m` and `m` resolves to a parsed function of the scope (unresolvable
names are treated as GLSL built-ins and ignored). -/
def callsEdge (fnScope : List ShaderFunction) (f : ShaderFunction) (m : String) : Prop :=
  ∃ dep ∈ f.dependencies, dep.type = .function ∧ dep.name = m ∧
    (fnScope.find? (fun g => g.name = m)).isSome

/-- Names transitively reachable from `start` in the call graph of the
scope (through resolved call edges only). -/
inductive ReachableFrom (fnScope : List ShaderFunction) (start : ShaderFunction) :
    String → Prop where
  | direct {m : String} : callsEdge fnScope start m → ReachableFrom fnScope start m
  | step {n m : String} {g : ShaderFunction} :
      ReachableFrom fnScope start n →
      fnScope.find? (fun f => f.name = n) = some g →
      callsEdge fnScope g m →
      ReachableFrom fnScope start m

/-- The number of scope functions whose name is not yet visited — the
quantity that strictly decreases at every recursive `collectDeps` call. -/
def unvisitedCount (fnScope : List ShaderFunction) (vis : List String) : Nat :=
  (fnScope.filter (fun f => !vis.contains f.name)).length

/-- A module whose call graph has a cycle: `f` calls `a`, `a` calls `b`,
`b` calls back `a`, and `d` is unreachable from `f`. -/
def cycSrc : String :=
  "float a(float p) \x7b return b(p); \x7d\nfloat b(float p) \x7b return a(p); \x7d\nfloat f(float p) \x7b return a(p); \x7d\nfloat d(float p) \x7b return p; \x7d"

/-- The cyclic module. -/
def cycModule : Module := ⟨"cyc", Compilable.mk' cycSrc, []⟩

/-- State for the cyclic-extraction scenario (nothing registered; extract
consumes no suffix). -/
def cycSt : St := {}

/-- The names of the helper functions that extracting `f` from the cyclic
module collects. -/
def cycDepNames : List String :=
  match Module.extract 1 cycModule "f" cycSt with
  | .ok t => t.1.depFunctions.map (fun g => g.name)
  | .error _ => []

/-- Name of a function resolved from a name, and a recorded call from it:
the edges the dependency walk follows into helpers. -/
def edgeFromName (fnScope : List ShaderFunction) (n m : String) : Prop :=
  ∃ g, fnScope.find? (fun f => f.name = n) = some g ∧ callsEdge fnScope g m

/-- The current function of a dependency walk is legitimate: it is the
extracted method itself, or resolves from a name already reachable. -/
def CurOK (fnScope : List ShaderFunction) (method current : ShaderFunction) : Prop :=
  current = method ∨
    ∃ n, ReachableFrom fnScope method n ∧
      fnScope.find? (fun f => f.name = n) = some current

/-- Invariant of the dependency walk tying the visited set to the
collected function map: the visited names are exactly the collected keys
plus the extracted name, the extracted name is never collected, and every
collected entry is the scope resolution of its key. -/
structure CollectInv (fnScope : List ShaderFunction) (fname : String)
    (cf : List (String × ShaderFunction)) (vis : List String) : Prop where
  key_match : ∀ n, n ∈ vis ↔ (hasKey cf n = true ∨ n = fname)
  no_fname : hasKey cf fname = false
  wellNamed : ∀ p ∈ cf, p.2.name = p.1
  memValues : ∀ p ∈ cf, fnScope.find? (fun f => f.name = p.1) = some p.2

/-- Number of underscores in a character list.  Every built-in uniform
name has exactly one; every namespaced requirement name has at least two
(one from `alias_suffix`, one before the original name), so a namespaced
name can never collide with a built-in name. -/
def underscoreCount (cs : List Char) : Nat :=
  (cs.filter (fun c => c = '_')).length

/-! # Theorems -/

/-! ## Key-map lemmas -/

theorem bindE_ok {α β : Type} (x : Except Fault α) (f : α → Except Fault β)
    (r : β) (h : bindE x f = .ok r) : ∃ v, x = .ok v ∧ f v = .ok r := by
  cases x with
  | error e => simp [bindE] at h
  | ok v => exact ⟨v, rfl, h⟩

theorem getKey_setKey_same {α : Type} (m : List (String × α)) (k : String) (v : α) :
    getKey (setKey m k v) k = some v := by
  induction m with
  | nil => simp [setKey, getKey, List.find?]
  | cons p rest ih =>
    by_cases h : p.1 = k
    · simp [setKey, h, getKey, List.find?]
    · simp only [setKey, h, if_false, reduceIte]
      simpa [getKey, List.find?, h] using ih

theorem getKey_setKey_ne {α : Type} (m : List (String × α)) (k k' : String) (v : α)
    (h : k' ≠ k) : getKey (setKey m k v) k' = getKey m k' := by
  have h' : ¬(k = k') := fun hh => h hh.symm
  induction m with
  | nil => simp [setKey, getKey, List.find?, h']
  | cons p rest ih =>
    obtain ⟨pk, pv⟩ := p
    by_cases hp : pk = k
    · subst hp
      simp [setKey, getKey, List.find?, h']
    · simp only [setKey, hp, reduceIte]
      by_cases hk' : pk = k'
      · simp [getKey, List.find?, hk']
      · simpa [getKey, List.find?, hk'] using ih

theorem setKey_setKey {α : Type} (m : List (String × α)) (k : String) (v1 v2 : α) :
    setKey (setKey m k v1) k v2 = setKey m k v2 := by
  induction m with
  | nil => simp [setKey]
  | cons p rest ih =>
    by_cases h : p.1 = k
    · simp [setKey, h]
    · simp [setKey, h, ih]

/-! ## C8 — Clock pause/resume -/

/-- C8: for any clock state `c` (the state held at the moment of `stop`,
after any running interval), any wall-clock timestamp `now` at which
`start` is called again (so the stopped interval is arbitrary), and any
manual tick delta `dt`: `stop` preserves `time`, and the time after
`stop → start → tick dt` is exactly `c.time + dt` — the interval spent
stopped contributes nothing. -/
theorem C8_clock_paused_interval_not_counted (c : Clock) (now dt : ℚ) :
    (c.stop).time = c.time ∧ (((c.stop).start now).tick dt).time = c.time + dt := by
  unfold Clock.stop Clock.start Clock.tick
  by_cases h : c.running <;> simp [h]

/-! ## C9 — Parser memoisation -/

/-- C9: when `parse()` succeeds, the second call on the resulting parser
returns the identical memoised result with the state unchanged (the
JavaScript original returns the very object stored in `this.parsed`), the
memo holds that result, and `setSource` drops the memo. -/
theorem C9_parse_memoised_until_setSource (p : ParserState)
    (r : ShaderParseResult) (p' : ParserState) (s : String)
    (h : p.parse = .ok (r, p')) :
    p'.parse = .ok (r, p') ∧ p'.parsed = some r ∧
      (p'.setSource s).parsed = none := by
  unfold ParserState.parse at h
  cases hp : p.parsed with
  | some r0 =>
    rw [hp] at h
    cases h
    refine ⟨?_, hp, rfl⟩
    unfold ParserState.parse
    rw [hp]
  | none =>
    rw [hp] at h
    cases hc : Parser.computeParse p.source with
    | error e => rw [hc] at h; cases h
    | ok r0 =>
      rw [hc] at h
      cases h
      refine ⟨?_, rfl, rfl⟩
      unfold ParserState.parse
      rfl

/-- Witness for C9 at a concrete source. -/
theorem C9_witness :
    (ParserState.mk' plainMainSrc).parse = .ok (plainMainParse, plainMainMemo) ∧
      plainMainMemo.parse = .ok (plainMainParse, plainMainMemo) ∧
      plainMainMemo.parsed = some plainMainParse ∧
      (plainMainMemo.setSource "x").parsed = none := by
  have h : (ParserState.mk' plainMainSrc).parse = .ok (plainMainParse, plainMainMemo) := by
    rfl
  have h2 := C9_parse_memoised_until_setSource (ParserState.mk' plainMainSrc)
    plainMainParse plainMainMemo "x" h
  exact ⟨h, h2.1, h2.2.1, h2.2.2⟩

/-! ## C10 — register replaces silently; define rejects duplicates -/

/-- C10: `register` is a total operation that overwrites the entry for an
already-registered name (no fault is possible: its return type carries no
error case) and leaves every other name untouched; the rejection of a
duplicate module exists only in `Module.define`, which checks the
design-time registry (after constructing the module) and raises
`overwriteModule` before any `register` call. -/
theorem C10_register_replaces_define_rejects
    (reg : List (String × Module)) (name n' : String) (m0 m : Module)
    (st : St) (source : String)
    (options : List (String × List (String × ModuleOption)))
    (_hreg : getKey reg name = some m0)
    (hst : ModuleRegistry.has st.modules name = true)
    (hres : name ≠ "sandbox")
    (hpre : name.startsWith "sandbox/" = false)
    (hopt : getKey options "default" = none)
    (hne : n' ≠ name) :
    getKey (ModuleRegistry.register reg name m) name = some m ∧
      getKey (ModuleRegistry.register reg name m) n' = getKey reg n' ∧
      Module.define st name source options = .error (.overwriteModule name) := by
  refine ⟨getKey_setKey_same reg name m, getKey_setKey_ne reg name n' m hne, ?_⟩
  unfold Module.define Module.mk' Module.resolveOptionsNorm
  simp [hres, hpre, hopt, hst]

/-- Witness for C10 at a concrete registry, module and state. -/
theorem C10_witness :
    getKey (ModuleRegistry.register [("m", aliasModule)] "m"
        ⟨"m", Compilable.mk' plainMainSrc, []⟩) "m" =
      some ⟨"m", Compilable.mk' plainMainSrc, []⟩ ∧
    getKey (ModuleRegistry.register [("m", aliasModule)] "m"
        ⟨"m", Compilable.mk' plainMainSrc, []⟩) "other" =
      getKey [("m", aliasModule)] "other" ∧
    Module.define { modules := [("m", aliasModule)] } "m" plainMainSrc [] =
      .error (.overwriteModule "m") := by
  exact C10_register_replaces_define_rejects [("m", aliasModule)] "m" "other"
    aliasModule ⟨"m", Compilable.mk' plainMainSrc, []⟩
    { modules := [("m", aliasModule)] } plainMainSrc []
    (by rfl) (by rfl) (by decide) (by decide) (by rfl) (by decide)

/-! ## C2 — built-in uniform seeding is lost -/

/-- C2 (code bug): the `Shader` constructor builds the built-in uniform
list and passes it to `super`, but the live `Compilable` constructor
accepts only the source, so the requirements bag starts empty; compiling
a shader that never references the built-ins returns the source
unchanged, with no `u_resolution`/`u_time`/`u_delta`/`u_mouse`/`u_frame`
declaration — the integration tests expect `uniform float u_time;` in
such output. -/
theorem C2_builtin_requirements_lost :
    (Shader.mk' plainMainSrc).requirements = ⟨[], []⟩ ∧
      (compileFuel 2 (Shader.mk' plainMainSrc) {}).map (fun r => r.1) =
        .ok plainMainSrc ∧
      (Parser.computeParse plainMainSrc).map (fun r => r.uniforms) = .ok [] :=
  ⟨rfl, rfl, rfl⟩

/-! ## C4 — orientation of the type-mismatch fault -/

set_option maxRecDepth 40000 in
/-- C4 counterexample: the author declares `uniform vec4 soft_abc123_u_s`
while the import requires that name as `float`.  The raised fault carries
`expectedType = "float"` (the required type) and `actualType = "vec4"`
(the author's declared type), so the §8 reading of the claim — the
declared type named as expected — is false on this input. -/
theorem C4_counterexample_expected_is_required :
    (compileFuel 3 (Shader.mk' conflictShaderSrc) conflictSt).map (fun r => r.1) =
        .error (.requirementMismatch "uniform" "soft_abc123_u_s" "float" "vec4") ∧
      (Parser.computeParse conflictShaderSrc).map
          (fun r => r.uniforms.map (fun u => (u.name, u.type))) =
        .ok [("soft_abc123_u_s", "vec4")] ∧
      ("float" : String) ≠ "vec4" :=
  ⟨rfl, rfl, by decide⟩

set_option maxRecDepth 40000 in
/-- C4 amended: compilation fails with a type-mismatch fault whose
`expectedType` is the required type and whose `actualType` is the
author's declared type — Scenario E's orientation (§8 has the two names
swapped).  Stated generally on `checkUniformsPresence` (the first
required entry conflicting) and concretely on the full pipeline. -/
theorem C4_amended_mismatch_orientation
    (content : ShaderParseResult) (rest : List (String × ShaderUniform))
    (name : String) (req decl : ShaderUniform)
    (hfind : content.uniforms.find? (fun u => u.name = name) = some decl)
    (hne : decl.type ≠ req.type) :
    checkUniformsPresence content ((name, req) :: rest) =
        .error (.requirementMismatch "uniform" name req.type decl.type) ∧
      (compileFuel 3 (Shader.mk' conflictShaderSrc) conflictSt).map (fun r => r.1) =
        .error (.requirementMismatch "uniform" "soft_abc123_u_s" "float" "vec4") := by
  constructor
  · unfold checkUniformsPresence
    rw [hfind]
    simp [hne]
  · rfl

/-- Witness for C4's amended theorem at a concrete conflicting pair. -/
theorem C4_amended_witness :
    checkUniformsPresence ⟨1, [], [⟨"u_x", "vec4", 1, none⟩], []⟩
        [("u_x", ⟨"u_x", "float", 0, none⟩)] =
      .error (.requirementMismatch "uniform" "u_x" "float" "vec4") := by
  exact (C4_amended_mismatch_orientation ⟨1, [], [⟨"u_x", "vec4", 1, none⟩], []⟩
    [] "u_x" ⟨"u_x", "float", 0, none⟩ ⟨"u_x", "vec4", 1, none⟩
    (by rfl) (by decide)).1

/-! ## C1 — runtime registry under a double alias -/

set_option maxRecDepth 40000 in
/-- C1 counterexample: in Scenario B (`effect` imported as `soft` and as
`hard` from the same module), after compilation
`resolveOptions("soft")` returns `null` — not the non-null record the
claim asserts for each alias: the copy registered while processing the
second alias replaced the first copy wholesale.  (The first conjunct ties
the module literal used by the scenario to the `Module` constructor.) -/
theorem C1_counterexample_first_alias_lost :
    Module.mk' "m" aliasModuleSrc aliasOpts = .ok aliasModule ∧
      (compileFuel 3 (Shader.mk' aliasShaderSrc) aliasSt).map
          (fun r => ModuleRegistry.resolveOptions r.2.2.runtime "soft") =
        .ok none :=
  ⟨rfl, rfl⟩

set_option maxRecDepth 40000 in
/-- C1 amended: `register` under an existing key replaces the stored copy
(last copy wins — there is no merging of option entries), so after the
double-alias compilation the runtime registry holds exactly one copy
under the module name, `resolveOptions` of the *last* alias returns its
record with the namespaced uniform name, and `resolveOptions` of the
first alias returns `null`. -/
theorem C1_amended_last_copy_wins
    (reg : List (String × Module)) (k : String) (m1 m2 : Module) :
    ModuleRegistry.register (ModuleRegistry.register reg k m1) k m2 =
        ModuleRegistry.register reg k m2 ∧
      (compileFuel 3 (Shader.mk' aliasShaderSrc) aliasSt).map
          (fun r =>
            (r.2.2.runtime.map Prod.fst,
             ModuleRegistry.resolveOptions r.2.2.runtime "hard",
             ModuleRegistry.resolveOptions r.2.2.runtime "soft")) =
        .ok (["m"], some [("strength", ⟨"hard_bbbbbb_u_strength", some 1⟩)], none) :=
  ⟨setKey_setKey reg k m1 m2, rfl⟩

/-! ## C3 — helper definitions versus references -/

set_option maxRecDepth 40000 in
/-- C3 (code bug): importing `fbm` where `fbm` calls `noise` and `noise`
calls `hash`, the compiled output defines `fbm_aaaaaa_noise` on line 2
with a recorded reference to `fbm_aaaaaa_hash` in its body, while
`fbm_aaaaaa_hash` is only defined on line 4: helpers are emitted in the
discovery order of the dependency walk (callers before callees), so a
transitive helper's definition appears *after* a reference to it — the
compiled text violates GLSL's declaration-before-use rule that §8.5
states. -/
theorem C3_helper_definition_after_reference :
    chainReport =
        .ok [("fbm_aaaaaa_noise", 2, ["fbm_aaaaaa_hash"]),
             ("fbm_aaaaaa_hash", 4, []),
             ("fbm", 6, ["fbm_aaaaaa_noise"]),
             ("main", 7, ["fbm"])] ∧
      (2 : Nat) < 4 :=
  ⟨rfl, by decide⟩

/-! ## C6 — import lines in the compiled output -/

set_option maxRecDepth 40000 in
theorem expectStr_eq_some (lit cs rest : List Char) :
    expectStr lit cs = some rest ↔ cs = lit ++ rest := by
  unfold expectStr
  by_cases h : lit.isPrefixOf cs
  · rw [if_pos h]
    obtain ⟨t, ht⟩ := List.isPrefixOf_iff_prefix.mp h
    subst ht
    rw [List.drop_left]
    simp
  · rw [if_neg h]
    constructor
    · intro hh; cases hh
    · intro hh
      exact absurd (List.isPrefixOf_iff_prefix.mpr ⟨rest, hh.symm⟩) h

theorem splitLinesCh_ne_nil (cs : List Char) : splitLinesCh cs ≠ [] := by
  cases cs with
  | nil => simp [splitLinesCh]
  | cons c rest =>
    unfold splitLinesCh
    cases h : splitLinesCh rest with
    | nil => simp
    | cons l ls => by_cases hc : c = '\n' <;> simp [hc]

theorem splitLinesCh_cons_eq (c : Char) (rest l0 : List Char)
    (ls : List (List Char)) (h : splitLinesCh rest = l0 :: ls) :
    splitLinesCh (c :: rest) =
      if c = '\n' then [] :: l0 :: ls else (c :: l0) :: ls := by
  unfold splitLinesCh
  rw [h]

theorem no_newline_in_lines (cs : List Char) :
    ∀ l ∈ splitLinesCh cs, '\n' ∉ l := by
  induction cs with
  | nil =>
    intro l hl
    simp only [splitLinesCh, List.mem_singleton] at hl
    subst hl; simp
  | cons c rest ih =>
    intro l hl
    cases h : splitLinesCh rest with
    | nil => exact absurd h (splitLinesCh_ne_nil rest)
    | cons l0 ls =>
      rw [splitLinesCh_cons_eq c rest l0 ls h] at hl
      by_cases hc : c = '\n'
      · rw [if_pos hc] at hl
        rcases List.mem_cons.mp hl with hl | hl
        · subst hl; simp
        · exact ih l (h ▸ hl)
      · rw [if_neg hc] at hl
        rcases List.mem_cons.mp hl with hl | hl
        · subst hl
          intro hmem
          rcases List.mem_cons.mp hmem with hh | hh
          · exact hc hh.symm
          · exact ih l0 (h ▸ List.mem_cons_self l0 ls) hh
        · exact ih l (h ▸ List.mem_cons.mpr (Or.inr hl))

theorem splitLinesCh_no_newline (l : List Char) (h : '\n' ∉ l) :
    splitLinesCh l = [l] := by
  induction l with
  | nil => rfl
  | cons c rest ih =>
    have hc : c ≠ '\n' := fun hh => h (hh ▸ List.mem_cons_self c rest)
    have hrest : '\n' ∉ rest := fun hh => h (List.mem_cons.mpr (Or.inr hh))
    rw [splitLinesCh_cons_eq c rest rest [] (ih hrest)]
    simp [hc]

theorem splitLinesCh_append_newline (l t : List Char) (h : '\n' ∉ l) :
    splitLinesCh (l ++ '\n' :: t) = l :: splitLinesCh t := by
  induction l with
  | nil =>
    simp only [List.nil_append]
    cases ht : splitLinesCh t with
    | nil => exact absurd ht (splitLinesCh_ne_nil t)
    | cons l0 ls =>
      rw [splitLinesCh_cons_eq '\n' t l0 ls ht]
      simp [ht]
  | cons c rest ih =>
    have hc : c ≠ '\n' := fun hh => h (hh ▸ List.mem_cons_self c rest)
    have hrest : '\n' ∉ rest := fun hh => h (List.mem_cons.mpr (Or.inr hh))
    simp only [List.cons_append]
    cases hr : splitLinesCh (rest ++ '\n' :: t) with
    | nil => exact absurd hr (splitLinesCh_ne_nil _)
    | cons l0 ls =>
      rw [splitLinesCh_cons_eq c _ l0 ls hr]
      have := ih hrest
      rw [hr] at this
      cases this
      simp [hc]

theorem mem_splitLinesCh_joinLinesCh (ls : List (List Char))
    (hclean : ∀ l ∈ ls, '\n' ∉ l) :
    ∀ line ∈ splitLinesCh (joinLinesCh ls), line ∈ ls ∨ line = [] := by
  induction ls with
  | nil =>
    intro line hline
    simp only [joinLinesCh, splitLinesCh, List.mem_singleton] at hline
    exact Or.inr hline
  | cons l rest ih =>
    intro line hline
    cases rest with
    | nil =>
      simp only [joinLinesCh] at hline
      rw [splitLinesCh_no_newline l (hclean l (List.mem_cons_self l []))] at hline
      rcases List.mem_singleton.mp hline with hl
      exact Or.inl (hl ▸ List.mem_cons_self l [])
    | cons l2 rest2 =>
      simp only [joinLinesCh] at hline
      rw [splitLinesCh_append_newline l _ (hclean l (List.mem_cons_self l _))] at hline
      rcases List.mem_cons.mp hline with hl | hl
      · exact Or.inl (hl ▸ List.mem_cons_self l _)
      · rcases ih (fun x hx => hclean x (List.mem_cons.mpr (Or.inr hx))) line hl with hh | hh
        · exact Or.inl (List.mem_cons.mpr (Or.inr hh))
        · exact Or.inr hh

set_option linter.unnecessarySimpa false in
theorem tabSpace_implies_loose (line : List Char)
    (h : tabSpaceImportLineMatch line = true) :
    Parser.looseImportLine line = true := by
  unfold tabSpaceImportLineMatch at h
  cases he : expectStr "#import".data (skipTabSpaces line) with
  | none => rw [he] at h; cases h
  | some rest =>
    rw [he] at h
    have hp0 := (expectStr_eq_some "#import".data (skipTabSpaces line) rest).mp he
    have hp : skipTabSpaces line = '#' :: ("import".data ++ rest) := hp0
    have hin : expectStr "import".data ("import".data ++ rest) = some rest :=
      (expectStr_eq_some _ _ _).mpr rfl
    unfold Parser.looseImportLine
    rw [hp]
    have hne : expectStr "import".data ('#' :: ("import".data ++ rest)) = none := by
      unfold expectStr
      rw [if_neg]
      intro hpre
      obtain ⟨t, ht⟩ := List.isPrefixOf_iff_prefix.mp hpre
      have : 'i' = '#' := by
        have := congrArg (fun l => l.head?) ht
        simpa using this
      cases this
    have hcn : (!isWordChar '#' && !isLineWs '#') = true := by decide
    simp only [hne, hin, hcn, if_true, Bool.false_or, reduceIte]
    exact h

theorem checkLooseImports_ok (imports : List ShaderImport) :
    ∀ (lines : List (List Char)) (n : Nat),
      Parser.checkLooseImports imports lines n = .ok () →
      ∀ i line, lines[i]? = some line → Parser.looseImportLine line = true →
        imports.any (fun imp => imp.line = n + i) := by
  intro lines
  induction lines with
  | nil => intro n _ i line hi; simp at hi
  | cons l ls ih =>
    intro n h i line hi hloose
    unfold Parser.checkLooseImports at h
    by_cases hcond :
        (Parser.looseImportLine l && !(imports.any fun imp => imp.line = n)) = true
    · rw [if_pos hcond] at h; cases h
    · rw [if_neg hcond] at h
      cases i with
      | zero =>
        simp only [List.getElem?_cons_zero, Option.some.injEq] at hi
        subst hi
        rw [hloose] at hcond
        simp only [Bool.true_and, Bool.not_eq_true', Bool.not_eq_false] at hcond
        simpa using hcond
      | succ j =>
        have := ih (n + 1) h j line (by simpa using hi) hloose
        have harith : n + 1 + j = n + (j + 1) := by omega
        rw [harith] at this
        exact this

theorem detectImports_ok_loose (source : List Char) (r : List ShaderImport)
    (h : Parser.detectImports source = .ok r) :
    ∀ i line, (splitLinesCh source)[i]? = some line →
      Parser.looseImportLine line = true →
      r.any (fun imp => imp.line = 1 + i) := by
  unfold Parser.detectImports at h
  split at h
  · exact absurd h (by simp)
  · rename_i imports hc
    split at h
    · exact absurd h (by simp)
    · rename_i u hl
      have h3 : imports = r := by simpa using h
      subst h3
      exact checkLooseImports_ok imports (splitLinesCh source) 1 hl

theorem mem_filtered_lines {p : Nat × List Char → Bool} (source : List Char)
    (l : List Char)
    (hl : l ∈ (((splitLinesCh source).enum.filter p).map Prod.snd)) :
    ∃ i, (splitLinesCh source)[i]? = some l ∧ p (i, l) = true := by
  obtain ⟨q, hq, hql⟩ := List.mem_map.mp hl
  obtain ⟨hqe, hqp⟩ := List.mem_filter.mp hq
  refine ⟨q.1, ?_, ?_⟩
  · have := List.mem_enum_iff_getElem?.mp hqe
    rw [← hql]
    exact this
  · have : (q.1, l) = q := by
      cases q
      simp only at hql
      simp [hql]
    rw [this]
    exact hqp

/-- C6 amended (general part + concrete pipeline): when the source parses
successfully, every line of the import-stripped text fails
`^[ \t]*#import\b` — every import line the parser recognises is removed,
and any line that *looks* like an import under the parser's `[ \t]*`
anchors would have been either a recognised import (removed) or an
import-syntax fault (no parse).  On the form-feed scenario, the full
compiled output likewise has no `^[ \t]*#import\b` line (the surviving
line needs `\s` to match, as the counterexample shows). -/
theorem C6_amended_valid_import_lines_stripped (source : List Char)
    (r : List ShaderImport) (h : Parser.detectImports source = .ok r) :
    (∀ line ∈ splitLinesCh (removeImportLines source r),
        tabSpaceImportLineMatch line = false) ∧
      (compileFuel 3 (Shader.mk' formFeedShaderSrc) formFeedSt).map
          (fun res => (splitLinesCh res.1.data).any tabSpaceImportLineMatch) =
        .ok false := by
  refine ⟨?_, by rfl⟩
  intro line hline
  unfold removeImportLines at hline
  simp only [] at hline
  rcases mem_splitLinesCh_joinLinesCh _
      (fun l hl =>
        (mem_filtered_lines source l hl).elim
          (fun i hi => no_newline_in_lines source l (List.getElem?_mem hi.1)))
      line hline with hmem | hnil
  · by_contra hne
    have hmatch : tabSpaceImportLineMatch line = true := by
      cases hval : tabSpaceImportLineMatch line
      · exact absurd hval hne
      · rfl
    obtain ⟨i, hget, hpred⟩ := mem_filtered_lines source line hmem
    have hloose : Parser.looseImportLine line = true :=
      tabSpace_implies_loose line hmatch
    have hany := detectImports_ok_loose source r h i line hget hloose
    have hcontains : (r.map (fun imp => imp.line)).contains (i + 1) = true := by
      obtain ⟨imp, himp, hline'⟩ := List.any_eq_true.mp hany
      have : i + 1 ∈ r.map (fun imp => imp.line) := by
        refine List.mem_map.mpr ⟨imp, himp, ?_⟩
        have := of_decide_eq_true hline'
        omega
      simpa [List.contains, List.elem_iff] using this
    simp only [hcontains] at hpred
    simp at hpred
  · rw [hnil]
    rfl

/-- Witness for C6's amended theorem at the form-feed source. -/
theorem C6_amended_witness :
    ((splitLinesCh (removeImportLines formFeedShaderSrc.data
        [⟨"effect", "effect", "m", 1⟩])).any tabSpaceImportLineMatch) = false := by
  have h := (C6_amended_valid_import_lines_stripped formFeedShaderSrc.data
    [⟨"effect", "effect", "m", 1⟩] (by rfl)).1
  rw [List.any_eq_false]
  intro line hline
  simp [h line hline]

/-! ## C7 support lemmas -/

theorem underscoreCount_append (a b : List Char) :
    underscoreCount (a ++ b) = underscoreCount a + underscoreCount b := by
  simp [underscoreCount, List.filter_append]

theorem builtin_one_underscore (b : String) (hb : b ∈ builtinUniformNames) :
    underscoreCount b.data = 1 := by
  simp only [builtinUniformNames, defaultUniformsList, List.map_cons, List.map_nil,
    List.mem_cons, List.not_mem_nil, or_false] at hb
  rcases hb with rfl | rfl | rfl | rfl | rfl <;> decide

theorem namespacedUniformName_ne_builtin (al suffix : String) (u : ShaderUniform)
    (b : String) (hb : b ∈ builtinUniformNames) :
    namespacedUniformName (al ++ "_" ++ suffix) u ≠ b := by
  intro he
  have hdata : (namespacedUniformName (al ++ "_" ++ suffix) u).data = b.data := by
    rw [he]
  have hcount : 2 ≤ underscoreCount (namespacedUniformName (al ++ "_" ++ suffix) u).data := by
    unfold namespacedUniformName
    have h1 : ((al ++ "_" ++ suffix) ++ "_" ++ u.name ++
        (match u.arrayNum with
         | some n => if n = 0 then "" else "[" ++ toString n ++ "]"
         | none => "")).data =
        al.data ++ "_".data ++ suffix.data ++ "_".data ++ u.name.data ++
        (match u.arrayNum with
         | some n => if n = 0 then "" else "[" ++ toString n ++ "]"
         | none => ("" : String)).data := by
      cases u.arrayNum <;> rfl
    rw [h1]
    rw [underscoreCount_append, underscoreCount_append, underscoreCount_append,
      underscoreCount_append, underscoreCount_append]
    have hu : underscoreCount "_".data = 1 := by decide
    omega
  rw [hdata, builtin_one_underscore b hb] at hcount
  omega

theorem filterMap_filter_of_none {α β : Type} {g : α → Option β} {p : α → Bool}
    (hg : ∀ a, p a = false → g a = none) (l : List α) :
    (l.filter p).filterMap g = l.filterMap g := by
  induction l with
  | nil => rfl
  | cons a rest ih =>
    cases hp : p a with
    | true => simp [List.filter_cons, hp, List.filterMap_cons, ih]
    | false =>
      simp only [List.filter_cons, hp, List.filterMap_cons, hg a hp, ih]
      simp [if_neg, hg a hp, ih]

theorem hasKey_setKey_ne {α : Type} (m : List (String × α)) (k k' : String)
    (v : α) (h : k' ≠ k) : hasKey (setKey m k v) k' = hasKey m k' := by
  unfold hasKey
  rw [getKey_setKey_ne m k k' v h]

theorem processUniformStep_preserves_builtin (al suffix mainName : String)
    (b : String) (hb : b ∈ builtinUniformNames)
    (acc : Requirements × List (String × List (String × ModuleOption)))
    (u : ShaderUniform) :
    hasKey (processUniformStep (al ++ "_" ++ suffix) mainName acc u).1.uniforms b =
      hasKey acc.1.uniforms b := by
  unfold processUniformStep
  by_cases hbu : builtinUniformNames.contains u.name = true
  · rw [if_pos hbu]
  · rw [if_neg hbu]
    exact hasKey_setKey_ne _ _ _ _
      (fun hh => namespacedUniformName_ne_builtin al suffix u b hb hh.symm)

theorem uniformsFold_preserves_builtin (al suffix mainName : String)
    (b : String) (hb : b ∈ builtinUniformNames) :
    ∀ (depUs : List ShaderUniform)
      (acc : Requirements × List (String × List (String × ModuleOption))),
      hasKey (depUs.foldl (processUniformStep (al ++ "_" ++ suffix) mainName)
          acc).1.uniforms b =
        hasKey acc.1.uniforms b := by
  intro depUs
  induction depUs with
  | nil => intro acc; rfl
  | cons u rest ih =>
    intro acc
    rw [List.foldl_cons, ih]
    exact processUniformStep_preserves_builtin al suffix mainName b hb acc u

theorem functionsFold_uniforms {α : Type}
    (g : Requirements → α → List (String × ShaderFunction)) :
    ∀ (l : List α) (reqs : Requirements),
      (l.foldl (fun reqs x => { reqs with functions := g reqs x }) reqs).uniforms =
        reqs.uniforms := by
  intro l
  induction l with
  | nil => intro reqs; rfl
  | cons x rest ih => intro reqs; rw [List.foldl_cons, ih]

theorem processExtraction_preserves_builtin
    (e : ModuleFunctionExtraction) (al : String)
    (options : List (String × List (String × ModuleOption)))
    (suffix : String) (reqs : Requirements) (b : String)
    (hb : b ∈ builtinUniformNames) :
    hasKey (processExtraction e al options suffix reqs).1.uniforms b =
      hasKey reqs.uniforms b := by
  unfold processExtraction
  simp only []
  rw [uniformsFold_preserves_builtin al suffix e.function.name b hb]
  simp only []
  rw [functionsFold_uniforms
    (fun reqs helperFunc =>
      setKey reqs.functions
        (rewriteFunction helperFunc al e.depUniforms e.depFunctions false
          (al ++ "_" ++ suffix)).name
        (rewriteFunction helperFunc al e.depUniforms e.depFunctions false
          (al ++ "_" ++ suffix)))]

theorem processImports_preserves_builtin_free
    (extractAt : Module → String → St → Except Fault (ModuleFunctionExtraction × Module × St))
    (b : String) (hb : b ∈ builtinUniformNames) :
    ∀ (imports : List ShaderImport) (c : Compilable) (st : St)
      (c' : Compilable) (st' : St),
      processImportsGiven extractAt imports c st = .ok (c', st') →
      hasKey c.requirements.uniforms b = false →
      hasKey c'.requirements.uniforms b = false := by
  intro imports
  induction imports with
  | nil =>
    intro c st c' st' h hc
    unfold processImportsGiven at h
    cases h
    exact hc
  | cons imp rest ih =>
    intro c st c' st' h hc
    unfold processImportsGiven at h
    obtain ⟨module, hres, h⟩ := bindE_ok _ _ _ h
    obtain ⟨ems, hext, h⟩ := bindE_ok _ _ _ h
    obtain ⟨copy, hcopy, h⟩ := bindE_ok _ _ _ h
    refine ih _ _ _ _ h ?_
    show hasKey (processExtraction ems.1 imp.aliasName copy.options
      (ems.2.2.suffixes.headD "") c.requirements).1.uniforms b = false
    rw [processExtraction_preserves_builtin ems.1 imp.aliasName
      copy.options (ems.2.2.suffixes.headD "") c.requirements b hb]
    exact hc

theorem compileFuel_builtin_free (fuel : Nat) (src : String) (st : St)
    (out : String) (c' : Compilable) (st' : St)
    (b : String) (hb : b ∈ builtinUniformNames)
    (h : compileFuel (fuel + 1) (Shader.mk' src) st = .ok (out, c', st')) :
    hasKey c'.requirements.uniforms b = false := by
  unfold compileFuel compileStep at h
  rw [if_neg (by simp [Shader.mk', Compilable.mk'])] at h
  obtain ⟨pr, hparse, h⟩ := bindE_ok _ _ _ h
  obtain ⟨cs, hproc, h⟩ := bindE_ok _ _ _ h
  obtain ⟨built, hbuild, h⟩ := bindE_ok _ _ _ h
  simp only [Except.ok.injEq, Prod.mk.injEq] at h
  have hreq : c'.requirements = cs.1.requirements := by
    rw [← h.2.1]
  rw [hreq]
  by_cases himp : pr.1.imports.length > 0
  · rw [if_pos himp] at hproc
    have hok : processImportsGiven (extractGiven (compileFuel fuel))
        pr.1.imports { Shader.mk' src with original := pr.2 } st = .ok (cs.1, cs.2) :=
      hproc
    exact processImports_preserves_builtin_free _ b hb pr.1.imports
      _ st cs.1 cs.2 hok (by rfl)
  · rw [if_neg himp] at hproc
    simp only [Except.ok.injEq] at hproc
    rw [← hproc]
    rfl

/-! ## C7 — built-in uniforms are never namespaced -/

set_option maxRecDepth 40000 in
/-- C7: (i) `rewriteFunction` generates rewrite operations only from
dependencies that are not built-in uniform references (the `UNIFORMS`
guard): removing the built-in uniform dependencies from a function
changes nothing about its rewrite operations; (ii) `processExtraction`
never adds a requirements entry under a built-in uniform name (every key
it adds is `alias_suffix_name` for a non-built-in `name`, which contains
at least two underscores while every built-in name has exactly one);
(iii) hence after a full successful `compile()` of a `Shader`, the
requirements bag — the only source of inserted uniform declarations —
contains no built-in name; (iv) concretely, with the author declaring
`uniform float u_time;` and importing a function whose body reads
`u_time`, the compiled output declares `u_time` exactly once, unprefixed,
alongside the namespaced module uniform. -/
theorem C7_builtins_never_namespaced
    (func : ShaderFunction) (uNames hNames : List String) (pfx : String)
    (e : ModuleFunctionExtraction) (al : String)
    (options : List (String × List (String × ModuleOption)))
    (suffix : String) (reqs : Requirements)
    (fuel : Nat) (src : String) (st : St) (out : String) (c' : Compilable)
    (st' : St) (b : String)
    (hb : b ∈ builtinUniformNames)
    (hcompile : compileFuel (fuel + 1) (Shader.mk' src) st = .ok (out, c', st')) :
    rewriteOps func uNames hNames pfx =
        rewriteOps
          { func with
            dependencies := func.dependencies.filter
              (fun d => !(d.type == DepType.uniform &&
                builtinUniformNames.contains d.name)) }
          uNames hNames pfx ∧
      hasKey (processExtraction e al options suffix reqs).1.uniforms b =
        hasKey reqs.uniforms b ∧
      hasKey c'.requirements.uniforms b = false ∧
      builtinReport = .ok [("u_time", "float"), ("soft_aaaaaa_u_s", "float")] := by
  refine ⟨?_, processExtraction_preserves_builtin e al options suffix reqs b hb,
    compileFuel_builtin_free fuel src st out c' st' b hb hcompile, by rfl⟩
  unfold rewriteOps
  simp only []
  rw [filterMap_filter_of_none]
  intro d hd
  simp only [Bool.not_eq_false', Bool.and_eq_true, beq_iff_eq] at hd
  obtain ⟨hdu, hdb⟩ := hd
  simp [hdu, hdb]
  intro _
  exact List.mem_of_elem_eq_true hdb

set_option maxRecDepth 40000 in
/-- Witness for C7 at concrete inputs (the built-in scenario discharges
the compile hypothesis; `u_time` the built-in). -/
theorem C7_witness :
    hasKey (processExtraction ⟨⟨"effect", "vec3", [], "\x7b\x7d", [], 1⟩, [],
        [⟨"u_time", "float", 1, none⟩, ⟨"u_s", "float", 2, none⟩]⟩
        "soft" [] "aaaaaa" ⟨[], []⟩).1.uniforms "u_time" =
      hasKey (Requirements.mk [] []).uniforms "u_time" ∧
    builtinReport = .ok [("u_time", "float"), ("soft_aaaaaa_u_s", "float")] := by
  obtain ⟨out, c', st', hc⟩ :
      ∃ o c s, compileFuel 3 (Shader.mk' builtinShaderSrc) builtinSt = .ok (o, c, s) :=
    ⟨_, _, _, rfl⟩
  have h := C7_builtins_never_namespaced
    ⟨"f", "void", [], "\x7b\x7d", [], 1⟩ [] [] "p"
    ⟨⟨"effect", "vec3", [], "\x7b\x7d", [], 1⟩, [],
      [⟨"u_time", "float", 1, none⟩, ⟨"u_s", "float", 2, none⟩]⟩
    "soft" [] "aaaaaa" ⟨[], []⟩
    2 builtinShaderSrc builtinSt out c' st' "u_time"
    (by decide) hc
  exact ⟨h.2.1, h.2.2.2⟩

/-- C6 counterexample: a line beginning with a form feed before
`#import` is outside the parser's `[ \t]*` anchors, so the source parses
successfully (one valid import) and compiles, yet the output contains a
line matching the claim's `^\s*#import\b` (the form feed is `\s`). -/
theorem C6_counterexample_formfeed_import_line :
    (Parser.computeParse formFeedShaderSrc).map (fun r => r.imports.length) =
        .ok 1 ∧
      (compileFuel 3 (Shader.mk' formFeedShaderSrc) formFeedSt).map
          (fun r => (splitLinesCh r.1.data).any claimWsImportLineMatch) =
        .ok true :=
  ⟨rfl, rfl⟩


/-! ## C5 — dependency collection is exactly transitive reachability -/

theorem contains_iff (l : List String) (x : String) : l.contains x = true ↔ x ∈ l :=
  ⟨List.mem_of_elem_eq_true, List.elem_eq_true_of_mem⟩

theorem contains_false_iff (l : List String) (x : String) :
    l.contains x = false ↔ x ∉ l := by
  rw [← Bool.not_eq_true, not_iff_not]
  exact contains_iff l x

theorem prefix_subset {α : Type} {l₁ l₂ : List α} (h : l₁ <+: l₂) :
    ∀ x ∈ l₁, x ∈ l₂ := by
  obtain ⟨t, rfl⟩ := h
  intro x hx
  exact List.mem_append_left _ hx

theorem length_filter_mono {α : Type} {p q : α → Bool}
    (h : ∀ a, p a = true → q a = true) :
    ∀ l : List α, (l.filter p).length ≤ (l.filter q).length := by
  intro l
  induction l with
  | nil => simp
  | cons a t ih =>
    simp only [List.filter_cons]
    by_cases hp : p a = true
    · rw [if_pos hp, if_pos (h a hp)]
      simpa using ih
    · rw [if_neg hp]
      by_cases hq : q a = true
      · rw [if_pos hq]
        exact Nat.le_succ_of_le ih
      · rw [if_neg hq]
        exact ih

theorem unvisited_le_of_subset (fnScope : List ShaderFunction)
    {vis vis' : List String} (h : ∀ x ∈ vis, x ∈ vis') :
    unvisitedCount fnScope vis' ≤ unvisitedCount fnScope vis := by
  apply length_filter_mono
  intro f hf
  simp only [Bool.not_eq_true'] at hf ⊢
  rw [contains_false_iff] at hf ⊢
  exact fun hm => hf (h _ hm)

theorem unvisited_append_lt (fnScope : List ShaderFunction) (vis : List String)
    (d : String) (hres : (fnScope.find? (fun f => f.name = d)).isSome)
    (hnv : vis.contains d = false) :
    unvisitedCount fnScope (vis ++ [d]) < unvisitedCount fnScope vis := by
  induction fnScope with
  | nil => simp [List.find?] at hres
  | cons f rest ih =>
    simp only [unvisitedCount, List.filter_cons] at *
    by_cases hf : f.name = d
    · have hold : (!vis.contains f.name) = true := by
        rw [hf, hnv]; rfl
      have hnew : (!(vis ++ [d]).contains f.name) = false := by
        rw [hf]
        have : (vis ++ [d]).contains d = true :=
          (contains_iff _ _).mpr (List.mem_append_right _ (List.mem_singleton.mpr rfl))
        rw [this]; rfl
      rw [if_pos hold, if_neg (fun hh => Bool.false_ne_true (hnew.symm.trans hh))]
      have hmono : ((rest.filter fun f => !(vis ++ [d]).contains f.name).length ≤
          (rest.filter fun f => !vis.contains f.name).length) := by
        apply length_filter_mono
        intro a ha
        simp only [Bool.not_eq_true'] at ha ⊢
        rw [contains_false_iff] at ha ⊢
        exact fun hm => ha (List.mem_append_left _ hm)
      simp only [List.length_cons]
      omega
    · have hres' : (rest.find? (fun f => f.name = d)).isSome := by
        rw [List.find?_cons] at hres
        have : (decide (f.name = d)) = false := by simp [hf]
        rwa [this] at hres
      have hlt := ih hres'
      have hsame : ((vis ++ [d]).contains f.name) = (vis.contains f.name) := by
        by_cases hm : f.name ∈ vis
        · rw [(contains_iff _ _).mpr hm,
            (contains_iff _ _).mpr (List.mem_append_left _ hm)]
        · have hm2 : f.name ∉ vis ++ [d] := by
            intro hc
            rcases List.mem_append.mp hc with h | h
            · exact hm h
            · exact hf (List.mem_singleton.mp h)
          rw [(contains_false_iff _ _).mpr hm, (contains_false_iff _ _).mpr hm2]
      rw [hsame]
      by_cases hc : (!vis.contains f.name) = true
      · rw [if_pos hc, if_pos hc]
        simp only [List.length_cons]
        omega
      · rw [if_neg hc, if_neg hc]
        exact hlt

theorem getKey_setKey_cases {α : Type} (m : List (String × α)) (k : String)
    (v : α) (n : String) :
    getKey (setKey m k v) n = if n = k then some v else getKey m n := by
  induction m with
  | nil =>
    by_cases h : n = k
    · simp [setKey, getKey, List.find?, h]
    · simp only [setKey, getKey, List.find?]
      have : (decide (k = n)) = false := by
        simp; exact fun hh => h hh.symm
      rw [this]
      simp [h]
  | cons p rest ih =>
    obtain ⟨pk, pv⟩ := p
    simp only [setKey]
    by_cases hk : pk = k
    · rw [if_pos hk]
      by_cases h : n = k
      · simp [getKey, List.find?, h]
      · simp only [getKey, List.find?]
        have h1 : (decide (k = n)) = false := by
          simp; exact fun hh => h hh.symm
        have h2 : (decide (pk = n)) = false := by
          simp; rw [hk]; exact fun hh => h hh.symm
        rw [h1, h2]
        simp [h]
    · rw [if_neg hk]
      by_cases hpn : pk = n
      · simp only [getKey, List.find?]
        have : (decide (pk = n)) = true := by simp [hpn]
        rw [this]
        have hnk : ¬(n = k) := by rw [← hpn]; exact fun hh => hk hh
        simp [hnk]
      · simp only [getKey, List.find?]
        have : (decide (pk = n)) = false := by simp [hpn]
        rw [this]
        simpa [getKey] using ih

theorem hasKey_setKey_cases {α : Type} (m : List (String × α)) (k : String)
    (v : α) (n : String) :
    hasKey (setKey m k v) n = if n = k then true else hasKey m n := by
  simp only [hasKey, getKey_setKey_cases]
  by_cases h : n = k <;> simp [h]

theorem mem_setKey {α : Type} (m : List (String × α)) (k : String) (v : α)
    (p : String × α) (h : p ∈ setKey m k v) : p ∈ m ∨ p = (k, v) := by
  induction m with
  | nil => simp [setKey] at h; simp [h]
  | cons q rest ih =>
    obtain ⟨qk, qv⟩ := q
    simp only [setKey] at h
    by_cases hk : qk = k
    · rw [if_pos hk] at h
      rcases List.mem_cons.mp h with h | h
      · right; exact h
      · left; exact List.mem_cons_of_mem _ h
    · rw [if_neg hk] at h
      rcases List.mem_cons.mp h with h | h
      · left; exact h ▸ List.mem_cons_self _ _
      · rcases ih h with h | h
        · left; exact List.mem_cons_of_mem _ h
        · right; exact h

theorem collectStep_visited {fnScope : List ShaderFunction}
    {uScope : List ShaderUniform} {r} {acc} {dep : ShaderDep}
    (ht : dep.type = .function) (hv : acc.2.2.contains dep.name = true) :
    collectStep fnScope uScope r acc dep = acc := by
  unfold collectStep
  rw [ht]
  show (if acc.2.2.contains dep.name = true then acc else _) = acc
  rw [if_pos hv]

theorem collectStep_unvisited_some {fnScope : List ShaderFunction}
    {uScope : List ShaderUniform} {r} {acc} {dep : ShaderDep}
    {g : ShaderFunction} (ht : dep.type = .function)
    (hv : acc.2.2.contains dep.name = false)
    (hf : fnScope.find? (fun f => f.name = dep.name) = some g) :
    collectStep fnScope uScope r acc dep =
      r g (setKey acc.1 dep.name g) acc.2.1 (acc.2.2 ++ [dep.name]) := by
  unfold collectStep
  rw [ht]
  show (if acc.2.2.contains dep.name = true then acc else _) = _
  rw [if_neg (fun hh => Bool.false_ne_true (hv.symm.trans hh)), hf]

theorem collectStep_unvisited_none {fnScope : List ShaderFunction}
    {uScope : List ShaderUniform} {r} {acc} {dep : ShaderDep}
    (ht : dep.type = .function)
    (hv : acc.2.2.contains dep.name = false)
    (hf : fnScope.find? (fun f => f.name = dep.name) = none) :
    collectStep fnScope uScope r acc dep = acc := by
  unfold collectStep
  rw [ht]
  show (if acc.2.2.contains dep.name = true then acc else _) = acc
  rw [if_neg (fun hh => Bool.false_ne_true (hv.symm.trans hh)), hf]

theorem collectStep_uniform {fnScope : List ShaderFunction}
    {uScope : List ShaderUniform} {r} {acc} {dep : ShaderDep}
    (ht : dep.type = .uniform) :
    collectStep fnScope uScope r acc dep =
      (acc.1, (collectStep fnScope uScope r acc dep).2.1, acc.2.2) := by
  unfold collectStep
  rw [ht]
  cases hfind : uScope.find? (fun u => u.name = dep.name) with
  | none => rfl
  | some u =>
    show (if hasKey acc.2.1 dep.name = true then acc
        else (acc.1, acc.2.1 ++ [(dep.name, u)], acc.2.2)) =
      (acc.1, (if hasKey acc.2.1 dep.name = true then acc
        else (acc.1, acc.2.1 ++ [(dep.name, u)], acc.2.2)).2.1, acc.2.2)
    by_cases h : hasKey acc.2.1 dep.name = true
    · rw [if_pos h]
    · rw [if_neg h]

theorem collectStep_rec_some {fnScope : List ShaderFunction}
    {uScope : List ShaderUniform} (fuel : Nat) {acc} {dep : ShaderDep}
    {g : ShaderFunction} (ht : dep.type = .function)
    (hv : acc.2.2.contains dep.name = false)
    (hf : fnScope.find? (fun f => f.name = dep.name) = some g) :
    collectStep fnScope uScope
      (fun g2 cf2 cu2 vis2 => collectDeps fuel g2 fnScope uScope cf2 cu2 vis2) acc dep =
      collectDeps fuel g fnScope uScope (setKey acc.1 dep.name g) acc.2.1
        (acc.2.2 ++ [dep.name]) := by
  rw [collectStep_unvisited_some ht hv hf]

theorem curOK_edge {fnScope : List ShaderFunction} {method current : ShaderFunction}
    {m : String} (h : CurOK fnScope method current)
    (he : callsEdge fnScope current m) : ReachableFrom fnScope method m := by
  rcases h with rfl | ⟨n, hr, hf⟩
  · exact .direct he
  · exact .step hr hf he

theorem collectFold (fnScope : List ShaderFunction) (uScope : List ShaderUniform)
    (fname : String) (method : ShaderFunction) :
    ∀ (fuel : Nat) (deps : List ShaderDep) (current : ShaderFunction),
    ∀ (cf : List (String × ShaderFunction)) (cu : List (String × ShaderUniform))
      (vis : List String),
      unvisitedCount fnScope vis < fuel + 1 →
      (∀ d ∈ deps, d ∈ current.dependencies) →
      CurOK fnScope method current →
      CollectInv fnScope fname cf vis →
      (∀ n ∈ vis, n ≠ fname → ReachableFrom fnScope method n) →
      (vis <+: (deps.foldl (collectStep fnScope uScope
          (fun g cf2 cu2 vis2 => collectDeps fuel g fnScope uScope cf2 cu2 vis2))
          (cf, cu, vis)).2.2 ∧
       CollectInv fnScope fname
         (deps.foldl (collectStep fnScope uScope
           (fun g cf2 cu2 vis2 => collectDeps fuel g fnScope uScope cf2 cu2 vis2))
           (cf, cu, vis)).1
         (deps.foldl (collectStep fnScope uScope
           (fun g cf2 cu2 vis2 => collectDeps fuel g fnScope uScope cf2 cu2 vis2))
           (cf, cu, vis)).2.2 ∧
       (∀ n ∈ (deps.foldl (collectStep fnScope uScope
           (fun g cf2 cu2 vis2 => collectDeps fuel g fnScope uScope cf2 cu2 vis2))
           (cf, cu, vis)).2.2, n ≠ fname → ReachableFrom fnScope method n) ∧
       (∀ d ∈ deps, d.type = .function →
         (fnScope.find? (fun f => f.name = d.name)).isSome →
         d.name ∈ (deps.foldl (collectStep fnScope uScope
           (fun g cf2 cu2 vis2 => collectDeps fuel g fnScope uScope cf2 cu2 vis2))
           (cf, cu, vis)).2.2) ∧
       (∀ n, n ∈ (deps.foldl (collectStep fnScope uScope
           (fun g cf2 cu2 vis2 => collectDeps fuel g fnScope uScope cf2 cu2 vis2))
           (cf, cu, vis)).2.2 → n ∉ vis → ∀ m, edgeFromName fnScope n m →
           m ∈ (deps.foldl (collectStep fnScope uScope
             (fun g cf2 cu2 vis2 => collectDeps fuel g fnScope uScope cf2 cu2 vis2))
             (cf, cu, vis)).2.2)) := by
  intro fuel
  induction fuel with
  | zero =>
    intro deps current
    induction deps with
    | nil =>
      intro cf cu vis hfuel hdeps hcur hinv hsound
      refine ⟨List.prefix_refl _, hinv, hsound, ?_, ?_⟩
      · intro d hd; exact absurd hd (List.not_mem_nil d)
      · intro n hn hnn; exact absurd hn hnn
    | cons d rest ih =>
      intro cf cu vis hfuel hdeps hcur hinv hsound
      have hdrest : ∀ x ∈ rest, x ∈ current.dependencies :=
        fun x hx => hdeps x (List.mem_cons_of_mem d hx)
      rw [List.foldl_cons]
      cases ht : d.type with
      | uniform =>
        rw [collectStep_uniform ht]
        have hrec := ih cf ((collectStep fnScope uScope
            (fun g cf2 cu2 vis2 => collectDeps 0 g fnScope uScope cf2 cu2 vis2)
            (cf, cu, vis) d).2.1) vis hfuel hdrest hcur hinv hsound
        refine ⟨hrec.1, hrec.2.1, hrec.2.2.1, ?_, hrec.2.2.2.2⟩
        intro d2 hd2 ht2 hres2
        rcases List.mem_cons.mp hd2 with h | h
        · subst h; rw [ht2] at ht; exact absurd ht (by simp)
        · exact hrec.2.2.2.1 d2 h ht2 hres2
      | function =>
        by_cases hv : vis.contains d.name = true
        · rw [collectStep_visited ht hv]
          have hrec := ih cf cu vis hfuel hdrest hcur hinv hsound
          refine ⟨hrec.1, hrec.2.1, hrec.2.2.1, ?_, hrec.2.2.2.2⟩
          intro d2 hd2 ht2 hres2
          rcases List.mem_cons.mp hd2 with h | h
          · subst h
            exact prefix_subset hrec.1 _ ((contains_iff _ _).mp hv)
          · exact hrec.2.2.2.1 d2 h ht2 hres2
        · rw [Bool.not_eq_true] at hv
          cases hf : fnScope.find? (fun f => f.name = d.name) with
          | none =>
            rw [collectStep_unvisited_none ht hv hf]
            have hrec := ih cf cu vis hfuel hdrest hcur hinv hsound
            refine ⟨hrec.1, hrec.2.1, hrec.2.2.1, ?_, hrec.2.2.2.2⟩
            intro d2 hd2 ht2 hres2
            rcases List.mem_cons.mp hd2 with h | h
            · subst h; rw [hf] at hres2; exact absurd hres2 (by simp)
            · exact hrec.2.2.2.1 d2 h ht2 hres2
          | some g =>
            exfalso
            have := unvisited_append_lt fnScope vis d.name (by rw [hf]; rfl) hv
            omega
  | succ F ihF =>
    intro deps current
    induction deps with
    | nil =>
      intro cf cu vis hfuel hdeps hcur hinv hsound
      refine ⟨List.prefix_refl _, hinv, hsound, ?_, ?_⟩
      · intro d hd; exact absurd hd (List.not_mem_nil d)
      · intro n hn hnn; exact absurd hn hnn
    | cons d rest ih =>
      intro cf cu vis hfuel hdeps hcur hinv hsound
      have hdrest : ∀ x ∈ rest, x ∈ current.dependencies :=
        fun x hx => hdeps x (List.mem_cons_of_mem d hx)
      rw [List.foldl_cons]
      cases ht : d.type with
      | uniform =>
        rw [collectStep_uniform ht]
        have hrec := ih cf ((collectStep fnScope uScope
            (fun g cf2 cu2 vis2 => collectDeps (F + 1) g fnScope uScope cf2 cu2 vis2)
            (cf, cu, vis) d).2.1) vis hfuel hdrest hcur hinv hsound
        refine ⟨hrec.1, hrec.2.1, hrec.2.2.1, ?_, hrec.2.2.2.2⟩
        intro d2 hd2 ht2 hres2
        rcases List.mem_cons.mp hd2 with h | h
        · subst h; rw [ht2] at ht; exact absurd ht (by simp)
        · exact hrec.2.2.2.1 d2 h ht2 hres2
      | function =>
        by_cases hv : vis.contains d.name = true
        · rw [collectStep_visited ht hv]
          have hrec := ih cf cu vis hfuel hdrest hcur hinv hsound
          refine ⟨hrec.1, hrec.2.1, hrec.2.2.1, ?_, hrec.2.2.2.2⟩
          intro d2 hd2 ht2 hres2
          rcases List.mem_cons.mp hd2 with h | h
          · subst h
            exact prefix_subset hrec.1 _ ((contains_iff _ _).mp hv)
          · exact hrec.2.2.2.1 d2 h ht2 hres2
        · rw [Bool.not_eq_true] at hv
          cases hf : fnScope.find? (fun f => f.name = d.name) with
          | none =>
            rw [collectStep_unvisited_none ht hv hf]
            have hrec := ih cf cu vis hfuel hdrest hcur hinv hsound
            refine ⟨hrec.1, hrec.2.1, hrec.2.2.1, ?_, hrec.2.2.2.2⟩
            intro d2 hd2 ht2 hres2
            rcases List.mem_cons.mp hd2 with h | h
            · subst h; rw [hf] at hres2; exact absurd hres2 (by simp)
            · exact hrec.2.2.2.1 d2 h ht2 hres2
          | some g =>
            rw [collectStep_rec_some (F + 1) ht hv hf]
            have hdGood : ReachableFrom fnScope method d.name := by
              apply curOK_edge hcur
              exact ⟨d, hdeps d (List.mem_cons_self d rest), ht, rfl, by rw [hf]; rfl⟩
            have hfname_mem : fname ∈ vis := (hinv.key_match fname).mpr (Or.inr rfl)
            have hdne : d.name ≠ fname := by
              intro hh; rw [hh] at hv
              rw [(contains_iff _ _).mpr hfname_mem] at hv
              exact Bool.true_eq_false.mp hv
            have hfuel2 : unvisitedCount fnScope (vis ++ [d.name]) < F + 1 := by
              have := unvisited_append_lt fnScope vis d.name (by rw [hf]; rfl) hv
              omega
            have hinv2 : CollectInv fnScope fname (setKey cf d.name g) (vis ++ [d.name]) := by
              refine ⟨?_, ?_, ?_, ?_⟩
              · intro n
                rw [hasKey_setKey_cases]
                by_cases hn : n = d.name
                · subst hn
                  simp only [if_pos rfl]
                  constructor
                  · intro _; exact Or.inl rfl
                  · intro _; exact List.mem_append_right _ (List.mem_singleton.mpr rfl)
                · rw [if_neg hn]
                  constructor
                  · intro hm
                    rcases List.mem_append.mp hm with h | h
                    · exact (hinv.key_match n).mp h
                    · exact absurd (List.mem_singleton.mp h) hn
                  · intro hm
                    exact List.mem_append_left _ ((hinv.key_match n).mpr hm)
              · rw [hasKey_setKey_cases, if_neg (fun hh => hdne hh.symm)]
                exact hinv.no_fname
              · intro p hp
                rcases mem_setKey _ _ _ _ hp with h | h
                · exact hinv.wellNamed p h
                · rw [h]
                  have := List.find?_some hf
                  simpa using this
              · intro p hp
                rcases mem_setKey _ _ _ _ hp with h | h
                · exact hinv.memValues p h
                · rw [h]
                  exact hf
            have hsound2 : ∀ n ∈ vis ++ [d.name], n ≠ fname →
                ReachableFrom fnScope method n := by
              intro n hn hnn
              rcases List.mem_append.mp hn with h | h
              · exact hsound n h hnn
              · rw [List.mem_singleton.mp h]; exact hdGood
            have hcur2 : CurOK fnScope method g := Or.inr ⟨d.name, hdGood, hf⟩
            have hrec := ihF g.dependencies g (setKey cf d.name g) cu (vis ++ [d.name])
              hfuel2 (fun x hx => hx) hcur2 hinv2 hsound2
            have hunfold : collectDeps (F + 1) g fnScope uScope
                (setKey cf d.name g) cu (vis ++ [d.name]) =
                g.dependencies.foldl (collectStep fnScope uScope
                  (fun g2 cf2 cu2 vis2 => collectDeps F g2 fnScope uScope cf2 cu2 vis2))
                  (setKey cf d.name g, cu, vis ++ [d.name]) := rfl
            rw [← hunfold] at hrec
            rcases hmid : collectDeps (F + 1) g fnScope uScope
                (setKey cf d.name g) cu (vis ++ [d.name]) with ⟨cf1, cu1, vis1⟩
            rw [hmid] at hrec
            obtain ⟨hpre1, hinv1, hsound1, hedges1, hproc1⟩ := hrec
            simp only at hpre1 hinv1 hsound1 hedges1 hproc1
            have hfuel1 : unvisitedCount fnScope vis1 < F + 1 + 1 := by
              have hsub : ∀ x ∈ vis, x ∈ vis1 := by
                intro x hx
                exact prefix_subset hpre1 _ (List.mem_append_left _ hx)
              have := unvisited_le_of_subset fnScope hsub
              omega
            have hfin := ih cf1 cu1 vis1 hfuel1 hdrest hcur hinv1 hsound1
            obtain ⟨hpreF, hinvF, hsoundF, hedgesF, hprocF⟩ := hfin
            have hpre_vd : vis <+: vis1 :=
              List.IsPrefix.trans (List.prefix_append vis [d.name]) hpre1
            refine ⟨List.IsPrefix.trans hpre_vd hpreF, hinvF, hsoundF, ?_, ?_⟩
            · intro d2 hd2 ht2 hres2
              rcases List.mem_cons.mp hd2 with h | h
              · subst h
                apply prefix_subset hpreF
                apply prefix_subset hpre1
                exact List.mem_append_right _ (List.mem_singleton.mpr rfl)
              · exact hedgesF d2 h ht2 hres2
            · intro n hn hnvis m hedge
              by_cases hn1 : n ∈ vis1
              · by_cases hnd : n ∈ vis ++ [d.name]
                · have hnd2 : n = d.name := by
                    rcases List.mem_append.mp hnd with h | h
                    · exact absurd h hnvis
                    · exact List.mem_singleton.mp h
                  subst hnd2
                  obtain ⟨g', hg', hcall⟩ := hedge
                  rw [hf] at hg'
                  rw [Option.some_inj] at hg'
                  subst hg'
                  obtain ⟨dep2, hdep2, htd2, hnd2, hres2⟩ := hcall
                  have := hedges1 dep2 hdep2 htd2 (by rw [hnd2]; exact hres2)
                  apply prefix_subset hpreF _
                  rw [← hnd2]
                  exact this
                · have := hproc1 n hn1 hnd m hedge
                  exact prefix_subset hpreF _ this
              · exact hprocF n hn hn1 m hedge

theorem collectTop (fnScope : List ShaderFunction) (uScope : List ShaderUniform)
    (fname : String) (method : ShaderFunction)
    (hfind : fnScope.find? (fun f => f.name = fname) = some method) :
    ∀ n,
      ((hasKey (collectDeps (fnScope.length + 1) method fnScope uScope [] [] [fname]).1 n = true) ↔
        (ReachableFrom fnScope method n ∧ n ≠ fname)) ∧
      (∀ p ∈ (collectDeps (fnScope.length + 1) method fnScope uScope [] [] [fname]).1,
        p.2.name = p.1 ∧ fnScope.find? (fun f => f.name = p.1) = some p.2) := by
  have hfuel : unvisitedCount fnScope [fname] < fnScope.length + 1 :=
    Nat.lt_succ_of_le (List.length_filter_le _ _)
  have hinv0 : CollectInv fnScope fname [] [fname] := by
    refine ⟨?_, rfl, ?_, ?_⟩
    · intro n
      constructor
      · intro h; exact Or.inr (List.mem_singleton.mp h)
      · intro h
        rcases h with h | h
        · exact absurd h (by simp [hasKey, getKey])
        · exact List.mem_singleton.mpr h
    · intro p hp; exact absurd hp (List.not_mem_nil p)
    · intro p hp; exact absurd hp (List.not_mem_nil p)
  have hsound0 : ∀ n ∈ [fname], n ≠ fname → ReachableFrom fnScope method n := by
    intro n hn hne; exact absurd (List.mem_singleton.mp hn) hne
  have h := collectFold fnScope uScope fname method fnScope.length
    method.dependencies method [] [] [fname] hfuel (fun d hd => hd) (Or.inl rfl) hinv0 hsound0
  have hunfold : collectDeps (fnScope.length + 1) method fnScope uScope [] [] [fname] =
      method.dependencies.foldl (collectStep fnScope uScope
        (fun g cf2 cu2 vis2 => collectDeps fnScope.length g fnScope uScope cf2 cu2 vis2))
        ([], [], [fname]) := rfl
  rw [hunfold]
  obtain ⟨hpre, hinv, hsound, hedges, hproc⟩ := h
  intro n
  refine ⟨⟨?_, ?_⟩, ?_⟩
  · intro hk
    have hne : n ≠ fname := by
      intro hh
      rw [hh] at hk
      exact Bool.false_ne_true ((hinv.no_fname).symm.trans hk)
    have hm : n ∈ (method.dependencies.foldl (collectStep fnScope uScope
        (fun g cf2 cu2 vis2 => collectDeps fnScope.length g fnScope uScope cf2 cu2 vis2))
        ([], [], [fname])).2.2 := (hinv.key_match n).mpr (Or.inl hk)
    exact ⟨hsound n hm hne, hne⟩
  · rintro ⟨hreach, hne⟩
    have hmem : ∀ m, ReachableFrom fnScope method m →
        m ∈ (method.dependencies.foldl (collectStep fnScope uScope
          (fun g cf2 cu2 vis2 => collectDeps fnScope.length g fnScope uScope cf2 cu2 vis2))
          ([], [], [fname])).2.2 := by
      intro m hm
      induction hm with
      | direct he =>
        obtain ⟨dep, hdin, hdt, hdn, hds⟩ := he
        have := hedges dep hdin hdt (by rw [hdn]; exact hds)
        rw [← hdn]
        exact this
      | step hr hf he ihm =>
        rename_i n1 m1 g1
        by_cases hfn : n1 = fname
        · rw [hfn, hfind] at hf
          rw [Option.some_inj] at hf
          subst hf
          obtain ⟨dep, hdin, hdt, hdn, hds⟩ := he
          have := hedges dep hdin hdt (by rw [hdn]; exact hds)
          rw [← hdn]
          exact this
        · have hn1 : n1 ∉ [fname] := fun hc => hfn (List.mem_singleton.mp hc)
          exact hproc n1 ihm hn1 m1 ⟨g1, hf, he⟩
    rcases (hinv.key_match n).mp (hmem n hreach) with h | h
    · exact h
    · exact absurd h hne
  · intro p hp
    exact ⟨hinv.wellNamed p hp, hinv.memValues p hp⟩

theorem collectNames (fnScope : List ShaderFunction) (uScope : List ShaderUniform)
    (fname : String) (method : ShaderFunction)
    (hfind : fnScope.find? (fun f => f.name = fname) = some method) (n : String) :
    ((∃ g ∈ ((collectDeps (fnScope.length + 1) method fnScope uScope [] [] [fname]).1).map
        (fun p => p.2), g.name = n) ↔
      (ReachableFrom fnScope method n ∧ n ≠ fname)) ∧
    (∀ g ∈ ((collectDeps (fnScope.length + 1) method fnScope uScope [] [] [fname]).1).map
        (fun p => p.2), fnScope.find? (fun f => f.name = g.name) = some g) := by
  have hTop := collectTop fnScope uScope fname method hfind
  constructor
  · constructor
    · rintro ⟨g, hg, hgn⟩
      obtain ⟨p, hp, hpeq⟩ := List.mem_map.mp hg
      have hw := (hTop n).2 p hp
      have hp1 : p.1 = n := by rw [← hw.1, hpeq, hgn]
      have hhk : hasKey
          (collectDeps (fnScope.length + 1) method fnScope uScope [] [] [fname]).1 n = true := by
        rw [← hp1]
        unfold hasKey getKey
        rw [Option.isSome_map']
        rw [List.find?_isSome]
        exact ⟨p, hp, by simp⟩
      exact (hTop n).1.mp hhk
    · rintro ⟨hreach, hne⟩
      have hhk := (hTop n).1.mpr ⟨hreach, hne⟩
      unfold hasKey at hhk
      obtain ⟨v, hv⟩ := Option.isSome_iff_exists.mp hhk
      unfold getKey at hhk hv
      obtain ⟨pair, hpair, hpv⟩ := Option.map_eq_some'.mp hv
      have hmem := List.mem_of_find?_eq_some hpair
      have hkey : pair.1 = n := by
        have := List.find?_some hpair
        simpa using this
      refine ⟨pair.2, List.mem_map.mpr ⟨pair, hmem, rfl⟩, ?_⟩
      rw [(hTop n).2 pair hmem |>.1, hkey]
  · intro g hg
    obtain ⟨p, hp, hpeq⟩ := List.mem_map.mp hg
    have hw := (hTop n).2 p hp
    rw [← hpeq, hw.1]
    exact hw.2

/-- A successful `parse()` leaves the returned parser state carrying the
returned result as its memo. -/
theorem parse_ok_memo (p : ParserState) (r : ShaderParseResult × ParserState)
    (h : ParserState.parse p = .ok r) : r.2.parsed = some r.1 := by
  unfold ParserState.parse at h
  cases hp : p.parsed with
  | some pr =>
    rw [hp] at h
    rw [Except.ok.injEq] at h
    rw [← h]
    exact hp
  | none =>
    rw [hp] at h
    cases hcp : Parser.computeParse p.source with
    | error e =>
      rw [hcp] at h
      exact absurd h (by simp)
    | ok pr =>
      rw [hcp] at h
      rw [Except.ok.injEq] at h
      rw [← h]

/-- **C5**: whenever `extract(name)` succeeds on a module, the returned
dependency bag holds exactly the helper functions whose names are
transitively reachable from the extracted method in the call graph of the
module's compiled parse (unresolvable call names are ignored as GLSL
built-ins; the method itself is excluded), and every collected helper is
the scope resolution of its own name.  The walk runs on fuel
`functions.length + 1`, which the visited-set argument shows is never
exhausted, so the walk terminates on cyclic call graphs as well. -/
theorem C5_extract_exactly_reachable
    (fuel : Nat) (m : Module) (name : String) (st : St)
    (ex : ModuleFunctionExtraction) (m2 : Module) (st2 : St)
    (content : ShaderParseResult)
    (hex : Module.extract fuel m name st = .ok (ex, m2, st2))
    (hc : m2.comp.compiled.parsed = some content) (n : String) :
    ((∃ g ∈ ex.depFunctions, g.name = n) ↔
      (ReachableFrom content.functions ex.function n ∧ n ≠ name)) ∧
    (∀ g ∈ ex.depFunctions,
      content.functions.find? (fun f => f.name = g.name) = some g) := by
  unfold Module.extract extractGiven at hex
  obtain ⟨cs, hcomp, hex⟩ := bindE_ok _ _ _ hex
  by_cases hmain : name = "main"
  · simp [hmain] at hex
  by_cases hdef : name = "default"
  · simp [hdef] at hex
  simp only [if_neg hmain, if_neg hdef] at hex
  obtain ⟨pr, hparse, hex⟩ := bindE_ok _ _ _ hex
  unfold extractFinish at hex
  cases hfind : pr.1.functions.find? (fun f => f.name = name) with
  | none =>
    rw [hfind] at hex
    exact absurd hex (by simp)
  | some method =>
    rw [hfind] at hex
    simp only [Except.ok.injEq, Prod.mk.injEq] at hex
    obtain ⟨hexeq, hm2, hst2⟩ := hex
    have hcompiled : m2.comp.compiled = pr.2 := by
      rw [← hm2]
    have hmemo := parse_ok_memo _ _ hparse
    rw [hcompiled, hmemo, Option.some_inj] at hc
    subst hc
    have hfn : ex.function = method := by rw [← hexeq]
    have hdepsEq : ex.depFunctions =
        ((collectDeps (pr.1.functions.length + 1) method pr.1.functions
          pr.1.uniforms [] [] [name]).1).map (fun p => p.2) := by
      rw [← hexeq]
    rw [hfn, hdepsEq]
    exact collectNames pr.1.functions pr.1.uniforms name method hfind n

set_option maxRecDepth 200000 in
/-- C5 witness: extracting `f` from a module whose call graph contains
the cycle `a ↔ b` terminates and collects exactly the reachable helpers
`a` and `b`. -/
theorem C5_witness : "a" ∈ cycDepNames ∧ "b" ∈ cycDepNames := by
  obtain ⟨m2, st2, hex, hc⟩ :
      ∃ a b, Module.extract 1 cycModule "f" cycSt =
          .ok (⟨⟨"f", "float", [⟨"float", "p"⟩], "\x7b return a(p); \x7d",
              [⟨"a", DepType.function, 9⟩], 3⟩,
            [⟨"a", "float", [⟨"float", "p"⟩], "\x7b return b(p); \x7d",
              [⟨"b", DepType.function, 9⟩], 1⟩,
             ⟨"b", "float", [⟨"float", "p"⟩], "\x7b return a(p); \x7d",
              [⟨"a", DepType.function, 9⟩], 2⟩], []⟩, a, b) ∧
        a.comp.compiled.parsed = some ⟨1, [], [],
          [⟨"a", "float", [⟨"float", "p"⟩], "\x7b return b(p); \x7d",
            [⟨"b", DepType.function, 9⟩], 1⟩,
           ⟨"b", "float", [⟨"float", "p"⟩], "\x7b return a(p); \x7d",
            [⟨"a", DepType.function, 9⟩], 2⟩,
           ⟨"f", "float", [⟨"float", "p"⟩], "\x7b return a(p); \x7d",
            [⟨"a", DepType.function, 9⟩], 3⟩,
           ⟨"d", "float", [⟨"float", "p"⟩], "\x7b return p; \x7d", [], 4⟩]⟩ :=
    ⟨_, _, rfl, rfl⟩
  have ha := C5_extract_exactly_reachable 1 cycModule "f" cycSt _ m2 st2 _ hex hc "a"
  have hb := C5_extract_exactly_reachable 1 cycModule "f" cycSt _ m2 st2 _ hex hc "b"
  have hnames : cycDepNames =
      [(⟨"a", "float", [⟨"float", "p"⟩], "\x7b return b(p); \x7d",
          [⟨"b", DepType.function, 9⟩], 1⟩ : ShaderFunction),
       ⟨"b", "float", [⟨"float", "p"⟩], "\x7b return a(p); \x7d",
          [⟨"a", DepType.function, 9⟩], 2⟩].map (fun g => g.name) := by
    unfold cycDepNames
    rw [hex]
  constructor
  · rw [hnames]
    obtain ⟨g, hg, hgn⟩ := ha.1.mpr
      ⟨ReachableFrom.direct (by unfold callsEdge; decide), by decide⟩
    exact List.mem_map.mpr ⟨g, hg, hgn⟩
  · rw [hnames]
    obtain ⟨g, hg, hgn⟩ := hb.1.mpr (hb.1.mp (by decide))
    exact List.mem_map.mpr ⟨g, hg, hgn⟩

end Sandbox
